import Mathlib

/-
  Verification of the patches-view synchronization engine
  (fiftyone/core/patches.py).

  The data model and the external collection-layer primitives are shallowly
  embedded; the sync engine functions are translated one-for-one from the
  source.  External collaborators that live outside the examined source file
  (the collection layer's `_set_labels_by_id`, `delete_labels`, `values`
  aggregations, `select_labels`, and the base-class write hooks) are modelled
  from the specification and are marked as such in their doc comments.
-/

namespace FiftyonePatches

/-- An embedded label document: its own globally-unique id, a list of string
tags, and payload content (class name, geometry, ...), abstracted as a
string. -/
structure Label where
  id : String
  tags : List String
  data : String
  deriving DecidableEq, Repr

/-- The declared type of a label field: a single embedded label document
(scalar), or a list-of-labels container type (a member of
`fol._LABEL_LIST_FIELDS`). -/
inductive LabelType where
  | scalar
  | list
  deriving DecidableEq, Repr

/-- The stored value of a label field in a document: a single embedded label
document, or a list-of-labels container. -/
inductive FieldValue where
  | scalarVal (l : Label)
  | listVal (ls : List Label)
  deriving DecidableEq, Repr

/-- A Mongo-serialized value as handed to the collection layer: a bare label
document, an inner list of label documents (the unwrapped contents of a
list-field container), a list-field container document wrapping its inner
list, or a null document. -/
inductive SyncDoc where
  | one (l : Label)
  | many (ls : List Label)
  | wrapped (ls : List Label)
  | null
  deriving DecidableEq, Repr

/-- The label documents carried by a serialized value. -/
def SyncDoc.labels : SyncDoc → List Label
  | .one l => [l]
  | .many ls => ls
  | .wrapped ls => ls
  | .null => []

/-- A concrete tag-edit function, as used by `tag_labels` / `untag_labels`:
add or remove one tag. -/
inductive TagEdit where
  | add (tag : String)
  | remove (tag : String)
  deriving DecidableEq, Repr

/-- Apply a tag edit to a tag list. -/
def TagEdit.applyTags : TagEdit → List String → List String
  | .add t, tags => if t ∈ tags then tags else tags ++ [t]
  | .remove t, tags => tags.filter (fun s => decide (s ≠ t))

/-- Apply a tag edit to a single label. -/
def applyEditLabel (edit : TagEdit) (l : Label) : Label :=
  { l with tags := edit.applyTags l.tags }

/-- A record of the backing patches dataset: the patch's own id, the id of
the originating source sample (`sample_id`), and its fields. -/
structure Patch where
  id : String
  sample_id : String
  fields : List (String × FieldValue)
  deriving DecidableEq, Repr

/-- A sample of the source collection. -/
structure SrcSample where
  id : String
  fields : List (String × FieldValue)
  deriving DecidableEq, Repr

/-- Modelled from the spec: the source collection held by the patches view
(`_source_collection`).  It references an underlying root dataset
(`_dataset` / `_root_dataset`) and may itself be a view that only exposes a
selected subset of the root's samples (`selected = none` means the whole
dataset is visible). -/
structure SourceRef where
  root : List SrcSample
  selected : Option (List String)
  deriving DecidableEq, Repr

/-- Modelled from the spec: the samples visible through a source-collection
reference, i.e. what its `values(...)` aggregations range over. -/
def srcVisible (ref : SourceRef) : List SrcSample :=
  match ref.selected with
  | none => ref.root
  | some ids => ref.root.filter (fun s => decide (s.id ∈ ids))

/-- Modelled from the spec: a view stage applied on top of the backing
patches dataset (`skip`, `limit`, or selection of specific patch ids). -/
inductive Stage where
  | skip (n : Nat)
  | limit (n : Nat)
  | select (ids : List String)
  deriving DecidableEq, Repr

/-- Modelled from the spec: the effect of one view stage on the list of
patches. -/
def applyStage : Stage → List Patch → List Patch
  | .skip n, ps => ps.drop n
  | .limit n, ps => ps.take n
  | .select ids, ps => ps.filter (fun p => decide (p.id ∈ ids))

/-- Modelled from the spec: the effect of the view's stage list. -/
def applyStages (stages : List Stage) (ps : List Patch) : List Patch :=
  stages.foldl (fun acc st => applyStage st acc) ps

/-- The state of a `_PatchesView`: the source-collection reference, the
backing patches dataset, the view's own stage list, the tracked label fields
(`_label_fields`, supplied by the concrete subclass), and the label-field
schema (the external schema service consulted by `_get_label_field_type` /
`_get_label_field_path`). -/
structure PatchesView where
  source : SourceRef
  patchesDataset : List Patch
  stages : List Stage
  labelFields : List String
  schema : List (String × LabelType)
  deriving DecidableEq, Repr

/-- The patches currently materialized by the view (its stages applied to
the backing dataset). -/
def viewPatches (v : PatchesView) : List Patch :=
  applyStages v.stages v.patchesDataset

/-- Association-list lookup of a field value in a document. -/
def lookupField : List (String × FieldValue) → String → Option FieldValue
  | [], _ => none
  | e :: rest, f => if e.1 = f then some e.2 else lookupField rest f

/-- Modelled from the spec: the schema service resolving a field name to its
declared label type (`_get_label_field_type` plus the
`issubclass(label_type, fol._LABEL_LIST_FIELDS)` test). -/
def lookupType : List (String × LabelType) → String → Option LabelType
  | [], _ => none
  | e :: rest, f => if e.1 = f then some e.2 else lookupType rest f

/-- Update the value of a named field in a document, leaving a document that
does not carry the field unchanged. -/
def setFieldValue (fields : List (String × FieldValue)) (f : String)
    (g : FieldValue → FieldValue) : List (String × FieldValue) :=
  fields.map (fun e => if e.1 = f then (e.1, g e.2) else e)

/-- The label documents held by a field value. -/
def valueLabels : FieldValue → List Label
  | .scalarVal l => [l]
  | .listVal ls => ls

/-- The label documents held by an optional field value (a missing field
holds none). -/
def optValueLabels : Option FieldValue → List Label
  | none => []
  | some v => valueLabels v

/-- Modelled from the spec: `sample._doc.field_to_mongo(field)` — the
Mongo-serialization of a field's stored value.  A scalar label serializes to
a bare label document; a list field serializes to its container document; a
missing/None value serializes to null. -/
def field_to_mongo : Option FieldValue → SyncDoc
  | none => .null
  | some (.scalarVal l) => .one l
  | some (.listVal ls) => .wrapped ls

/-- Modelled from the spec: `doc[label_type._LABEL_LIST_FIELD]` — indexing a
serialized container document by the list-field attribute yields the inner
list; any other document raises (no such key), which is modelled as
`none`. -/
def unwrapListDoc : SyncDoc → Option SyncDoc
  | .wrapped ls => some (.many ls)
  | _ => none

/-- Modelled from the spec: the raw projection `Values(label_path, _raw=True)`
of a field at its label path.  For a scalar field the label path is the field
itself; for a list field it descends through the container's list attribute.
A missing value, or a value whose shape does not match the declared path,
projects to null. -/
def project_raw (t : LabelType) : Option FieldValue → SyncDoc
  | none => .null
  | some (.scalarVal l) =>
      match t with
      | .scalar => .one l
      | .list => .null
  | some (.listVal ls) =>
      match t with
      | .scalar => .wrapped ls
      | .list => .many ls

/-- Modelled from the spec: the unwound id projection
`Values(id_path, unwind=True)` of a field: the list of label ids reachable
at the field's id path, flattened; missing or shape-mismatched values
contribute nothing. -/
def project_ids (t : LabelType) : Option FieldValue → List String
  | none => []
  | some (.scalarVal l) =>
      match t with
      | .scalar => [l.id]
      | .list => []
  | some (.listVal ls) =>
      match t with
      | .scalar => []
      | .list => ls.map (fun l => l.id)

/-- Replace a label by the first payload label sharing its id, if any. -/
def replaceIn (new : List Label) (l : Label) : Label :=
  match new.find? (fun n => decide (n.id = l.id)) with
  | some n => n
  | none => l

/-- Whether a payload label's id is absent from the current list. -/
def isNewLabel (cur : List Label) (n : Label) : Bool :=
  decide (∀ l ∈ cur, l.id ≠ n.id)

/-- Modelled from the spec: upsert-by-id of a batch of label documents into
an existing list of labels — labels whose ids are present are overwritten in
place, labels with fresh ids are appended. -/
def upsertLabels (cur new : List Label) : List Label :=
  cur.map (replaceIn new) ++ new.filter (isNewLabel cur)

/-- Modelled from the spec: the effect of writing one serialized document
into one field value during `_set_labels_by_id`.  A list field upserts the
payload's labels by id; a scalar field is overwritten by a bare label
document and is left unchanged by payloads of any other shape. -/
def applySetDoc : FieldValue → SyncDoc → FieldValue
  | .scalarVal _, .one l => .scalarVal l
  | .scalarVal l0, .many _ => .scalarVal l0
  | .scalarVal l0, .wrapped _ => .scalarVal l0
  | .scalarVal l0, .null => .scalarVal l0
  | .listVal cur, d => .listVal (upsertLabels cur d.labels)

/-- One (sample-id, document) pair of a `_set_labels_by_id` call applied to
one sample: the sample's field is updated only when the ids match. -/
def setLabelsStep (field : String) (s : SrcSample) (pr : String × SyncDoc) :
    SrcSample :=
  if s.id = pr.1 then
    { s with fields := setFieldValue s.fields field (fun v => applySetDoc v pr.2) }
  else s

/-- All (sample-id, document) pairs of a `_set_labels_by_id` call applied to
one sample, in order. -/
def setLabelsSample (field : String) (pairs : List (String × SyncDoc))
    (s : SrcSample) : SrcSample :=
  pairs.foldl (setLabelsStep field) s

/-- Modelled from the spec: `_set_labels_by_id(field, sample_ids, docs)` —
upsert the given raw label documents into the named field of the identified
samples of the dataset. -/
def set_labels_by_id (field : String) (sample_ids : List String)
    (docs : List SyncDoc) (ds : List SrcSample) : List SrcSample :=
  ds.map (setLabelsSample field (sample_ids.zip docs))

/-- Modelled from the spec: the effect of `delete_labels(ids, fields)` on one
field value: a scalar label with a matching id is removed entirely (the
field entry disappears), and matching members of a list field are filtered
out. -/
def deleteFromValue (ids : List String) : FieldValue → Option FieldValue
  | .scalarVal l => if l.id ∈ ids then none else some (.scalarVal l)
  | .listVal ls => some (.listVal (ls.filter (fun l => decide (l.id ∉ ids))))

/-- Modelled from the spec: `delete_labels` applied to one sample. -/
def deleteLabelsSample (ids : List String) (field : String) (s : SrcSample) :
    SrcSample :=
  { s with
    fields := s.fields.filterMap (fun e =>
      if e.1 = field then (deleteFromValue ids e.2).map (fun v => (e.1, v))
      else some e) }

/-- Modelled from the spec: `delete_labels(ids=..., fields=field)` — remove
the label documents with the given ids from the named field across every
sample of the dataset. -/
def delete_labels (ids : List String) (field : String)
    (ds : List SrcSample) : List SrcSample :=
  ds.map (deleteLabelsSample ids field)

/-- Apply a tag edit to every label of a field value. -/
def editValueTags (edit : TagEdit) : FieldValue → FieldValue
  | .scalarVal l => .scalarVal (applyEditLabel edit l)
  | .listVal ls => .listVal (ls.map (applyEditLabel edit))

/-- Apply a tag edit to the labels of a field value whose ids are among the
selected ids. -/
def editValueTagsIf (edit : TagEdit) (ids : List String) : FieldValue → FieldValue
  | .scalarVal l => .scalarVal (if l.id ∈ ids then applyEditLabel edit l else l)
  | .listVal ls =>
      .listVal (ls.map (fun l => if l.id ∈ ids then applyEditLabel edit l else l))

/-- Whether a field name is selected by an optional field list (an absent
list selects every field). -/
def fieldSelected (fa : Option (List String)) (f : String) : Bool :=
  match fa with
  | none => true
  | some fs => decide (f ∈ fs)

/-- Modelled from the spec: editing tags through the sub-view produced by
`select_labels(ids=ids, fields=field)` — the tag edit reaches exactly the
labels of the named field, in samples visible through the source reference,
whose ids are among the selected ids. -/
def sourceEditSample (edit : TagEdit) (field : String) (ids : List String)
    (s : SrcSample) : SrcSample :=
  { s with
    fields := s.fields.map (fun e =>
      (e.1, if e.1 = field then editValueTagsIf edit ids e.2 else e.2)) }

/-- Modelled from the spec: the whole-collection effect of re-applying the
tag edit to the `select_labels` sub-view of the source reference. -/
def sourceEditField (edit : TagEdit) (field : String) (ids : List String)
    (ref : SourceRef) : SourceRef :=
  let vis := (srcVisible ref).map (fun s => s.id)
  { ref with
    root := ref.root.map (fun s =>
      if s.id ∈ vis then sourceEditSample edit field ids s else s) }

/-- A call issued against the collection layer during a mutation entry
point, recorded in order of issue. -/
inductive SyncOp where
  | baseSave (fields : Option (List String))
  | basePatchSave (patchId : String)
  | baseSetValues (fieldName : String)
  | baseEditTags (edit : TagEdit) (fields : Option (List String))
  | setLabels (field : String) (sampleIds : List String) (docs : List SyncDoc)
  | deleteLabels (ids : List String) (field : String)
  | sourceEditTags (edit : TagEdit) (field : String) (ids : List String)
  deriving DecidableEq, Repr

/-- The `Values("sample_id")` aggregation over a list of patches. -/
def aggSampleIds (ps : List Patch) : List String :=
  ps.map (fun p => p.sample_id)

/-- The `Values(label_path, _raw=True)` aggregation of a field over a list
of patches. -/
def aggDocs (t : LabelType) (field : String) (ps : List Patch) : List SyncDoc :=
  ps.map (fun p => project_raw t (lookupField p.fields field))

/-- The `Values(id_path, unwind=True)` aggregation of a field over a list of
patches. -/
def aggLabelIds (t : LabelType) (field : String) (ps : List Patch) : List String :=
  (ps.map (fun p => project_ids t (lookupField p.fields field))).flatten

/-- The `values(src_id_path, unwind=True)` aggregation of a field over the
samples of a source dataset. -/
def srcFieldIds (t : LabelType) (field : String) (ds : List SrcSample) :
    List String :=
  (ds.map (fun s => project_ids t (lookupField s.fields field))).flatten

/-- The difference `set(xs) - set(ys)`, as the duplicate-free list of the
members of `xs` that are not members of `ys`. -/
def setDiff (xs ys : List String) : List String :=
  (xs.filter (fun x => decide (x ∉ ys))).dedup

/-- The document forwarded for a patch's field by the single-sample sync:
the field's Mongo-serialization, unwrapped through the list-field container
attribute when the declared type is a list type (`none` when the code would
raise because the serialized document has no list attribute to index). -/
def patchFieldDoc (t : LabelType) (fv : Option FieldValue) : Option SyncDoc :=
  if t = .list then unwrapListDoc (field_to_mongo fv)
  else some (field_to_mongo fv)

/-- The (operation, updated source) pair produced by a successful
single-sample sync of one field: one `_set_labels_by_id` call whose
sample-id list is the singleton holding the patch's own `sample_id` and
whose document list holds the extracted document. -/
def sampleSyncResult (v : PatchesView) (p : Patch) (field : String)
    (d : SyncDoc) : SyncOp × SourceRef :=
  (SyncOp.setLabels field [p.sample_id] [d],
   { v.source with
     root := set_labels_by_id field [p.sample_id] [d] v.source.root })

/-- Translated from `_PatchesView._sync_source_sample_field`: serialize the
saved patch record's field (unwrapping the list-field container when the
declared type is a list type) and issue a single `_set_labels_by_id` call
against the source collection keyed by the patch's own `sample_id`.  Returns
the issued call and the updated source reference, or `none` when the code
would raise (unknown field, or a list-typed field whose serialized document
has no list attribute to index). -/
def sync_source_sample_field (v : PatchesView) (p : Patch) (field : String) :
    Option (SyncOp × SourceRef) :=
  match lookupType v.schema field with
  | none => none
  | some t =>
      match patchFieldDoc t (lookupField p.fields field) with
      | none => none
      | some d => some (sampleSyncResult v p field d)

/-- Translated from `_PatchesView._sync_source_sample`: run the single-sample
sync for every tracked label field in order, threading the source state. -/
def sync_source_sample_fields (v : PatchesView) (p : Patch) :
    List String → Option (List SyncOp × SourceRef)
  | [] => some ([], v.source)
  | f :: rest =>
      match sync_source_sample_field v p f with
      | none => none
      | some (op, src) =>
          match sync_source_sample_fields { v with source := src } p rest with
          | none => none
          | some (ops, src2) => some (op :: ops, src2)

/-- Translated from `_PatchView.save`: perform the base write-back of the
record into the backing patches dataset, then sync the source collection via
`_sync_source_sample`. -/
def patch_save (v : PatchesView) (p : Patch) :
    Option (List SyncOp × PatchesView) :=
  let ds := v.patchesDataset.map (fun q => if q.id = p.id then p else q)
  let v1 : PatchesView := { v with patchesDataset := ds }
  match sync_source_sample_fields v1 p v1.labelFields with
  | none => none
  | some (ops, src) =>
      some (SyncOp.basePatchSave p.id :: ops, { v1 with source := src })

/-- The `_set_labels_by_id` call issued by the per-field view sync: the
(sample-id, raw label value) pairs are aggregated over the current view
itself (its stages applied), not over the full backing patches dataset. -/
def viewSyncOp (v : PatchesView) (t : LabelType) (field : String) : SyncOp :=
  SyncOp.setLabels field (aggSampleIds (viewPatches v))
    (aggDocs t field (viewPatches v))

/-- The source reference after the per-field view sync. -/
def viewSyncRef (v : PatchesView) (t : LabelType) (field : String) :
    SourceRef :=
  { v.source with
    root := set_labels_by_id field (aggSampleIds (viewPatches v))
      (aggDocs t field (viewPatches v)) v.source.root }

/-- Translated from `_PatchesView._sync_source_view_field`: resolve the
field's label path, aggregate (sample-id, raw label value) pairs over the
current view itself (its stages applied), and forward the batch to the
source collection's `_set_labels_by_id`. -/
def sync_source_view_field (v : PatchesView) (field : String) :
    Option (List SyncOp × SourceRef) :=
  match lookupType v.schema field with
  | none => none
  | some t => some ([viewSyncOp v t field], viewSyncRef v t field)

/-- Translated from `_PatchesView.set_values`: the base bulk write is
performed by the collection layer (the view state passed here is the state
after that write); then, when the written field path's root name is a
tracked label field, the per-field view sync is triggered. -/
def set_values (v : PatchesView) (fieldName : String) :
    Option (List SyncOp × PatchesView) :=
  let field := ((fieldName.splitOn ".").headD fieldName)
  if field ∈ v.labelFields then
    match sync_source_view_field v field with
    | none => none
    | some (ops, src) =>
        some (SyncOp.baseSetValues fieldName :: ops, { v with source := src })
  else
    some ([SyncOp.baseSetValues fieldName], v)

/-- Translated from `_PatchesView._sync_source_root_field`.
Update phase: aggregate (sample-id, raw label value, unwound label-id) over
the entire backing patches dataset and forward the (sample-id, raw value)
pairs to the source collection's `_set_labels_by_id`.  Deletion phase: read
the field's label ids still present in the source collection (through the
view's source reference), subtract the label ids gathered from the patches
dataset by the same aggregation pass, and, when the difference is nonempty,
issue a single bulk `delete_labels` call against the source collection's
underlying root dataset.  The update-phase call issued: -/
def rootUpdateOp (v : PatchesView) (t : LabelType) (field : String) : SyncOp :=
  SyncOp.setLabels field (aggSampleIds v.patchesDataset)
    (aggDocs t field v.patchesDataset)

/-- The source reference after the update phase of the full-root sync: the
(sample-id, raw label value) pairs aggregated over the entire backing
patches dataset are forwarded to `_set_labels_by_id`. -/
def rootUpdateRef (v : PatchesView) (t : LabelType) (field : String) :
    SourceRef :=
  { v.source with
    root := set_labels_by_id field (aggSampleIds v.patchesDataset)
      (aggDocs t field v.patchesDataset) v.source.root }

/-- The delete-id set computed by the deletion phase of the full-root sync:
the label ids of the field read from the source collection (as visible
through the view's source reference, after the update phase) minus the
label ids gathered from the backing patches dataset by the update-phase
aggregation. -/
def rootDeleteIds (v : PatchesView) (t : LabelType) (field : String) :
    List String :=
  setDiff (srcFieldIds t field (srcVisible (rootUpdateRef v t field)))
    (aggLabelIds t field v.patchesDataset)

def sync_source_root_field (v : PatchesView) (field : String) :
    Option (List SyncOp × SourceRef) :=
  match lookupType v.schema field with
  | none => none
  | some t =>
      let src1 := rootUpdateRef v t field
      let delete_ids := rootDeleteIds v t field
      if delete_ids.isEmpty then
        some ([rootUpdateOp v t field], src1)
      else
        some ([rootUpdateOp v t field,
               SyncOp.deleteLabels delete_ids field],
              { src1 with root := delete_labels delete_ids field src1.root })

/-- Translated from `_PatchesView._sync_source_root`: run the full-root sync
for every requested field in order, threading the source state. -/
def sync_source_root_fields (v : PatchesView) :
    List String → Option (List SyncOp × SourceRef)
  | [] => some ([], v.source)
  | f :: rest =>
      match sync_source_root_field v f with
      | none => none
      | some (ops, src) =>
          match sync_source_root_fields { v with source := src } rest with
          | none => none
          | some (ops2, src2) => some (ops ++ ops2, src2)

/-- The `fields` argument accepted by the view-level mutation entry points:
absent, a bare field name, or a list of field names. -/
inductive FieldsArg where
  | all
  | str (s : String)
  | list (fs : List String)
  deriving DecidableEq, Repr

/-- Translated from the `etau.is_str(fields)` normalization: a bare string
field name becomes a one-element list; an absent argument stays absent. -/
def normalizeArg : FieldsArg → Option (List String)
  | .all => none
  | .str s => some [s]
  | .list fs => some fs

/-- Translated from the field filtering in `_PatchesView.save` and
`_PatchesView._edit_label_tags`: an absent argument means all tracked label
fields; an explicit list is intersected with the tracked label fields. -/
def resolveFields (labelFields : List String) :
    Option (List String) → List String
  | none => labelFields
  | some fs => fs.filter (fun f => decide (f ∈ labelFields))

/-- Translated from `_PatchesView.save`: normalize the `fields` argument,
perform the base save (which commits the view's materialized changes into
the backing patches dataset; modelled from the spec as already reflected in
the dataset state), restrict the requested fields to the tracked label
fields, and run the full-root sync over the backing patches dataset. -/
def view_save (v : PatchesView) (arg : FieldsArg) :
    Option (List SyncOp × PatchesView) :=
  let fieldsArg := normalizeArg arg
  let fields := resolveFields v.labelFields fieldsArg
  match sync_source_root_fields v fields with
  | none => none
  | some (ops, src) =>
      some (SyncOp.baseSave fieldsArg :: ops, { v with source := src })

/-- Modelled from the spec: the per-patch effect of the base
`_edit_label_tags` of a dataset view. -/
def baseEditPatch (edit : TagEdit) (fields : Option (List String))
    (p : Patch) : Patch :=
  { p with
    fields := p.fields.map (fun e =>
      (e.1, if fieldSelected fields e.1 then editValueTags edit e.2
            else e.2)) }

/-- Modelled from the spec: the base `_edit_label_tags` of a dataset view —
the tag edit is applied, inside the backing patches dataset, to the labels
of the requested fields (all fields when the argument is absent) of the
patches visible through the view. -/
def baseEditTags (v : PatchesView) (edit : TagEdit)
    (fields : Option (List String)) : List Patch :=
  let vis := (viewPatches v).map (fun p => p.id)
  v.patchesDataset.map (fun p =>
    if p.id ∈ vis then baseEditPatch edit fields p else p)

/-- The unwound id aggregation `self.values(id_path, unwind=True)` of a
field over the current view (its stages applied). -/
def viewFieldIds (t : LabelType) (field : String) (v : PatchesView) :
    List String :=
  ((viewPatches v).map (fun p => project_ids t (lookupField p.fields field))).flatten

/-- Translated from `_PatchesView._sync_source_fcn` (specialised to the tag
edits that `_edit_label_tags` passes to it): for every field, collect the
unwound label ids of the field over the current view, select exactly those
label ids in the source collection, and re-apply the same tag edit there. -/
def sync_source_tag_fields (edit : TagEdit) (v : PatchesView) :
    List String → Option (List SyncOp × SourceRef)
  | [] => some ([], v.source)
  | f :: rest =>
      match lookupType v.schema f with
      | none => none
      | some t =>
          let ids := viewFieldIds t f v
          let src := sourceEditField edit f ids v.source
          match sync_source_tag_fields edit { v with source := src } rest with
          | none => none
          | some (ops, src2) =>
              some (SyncOp.sourceEditTags edit f ids :: ops, src2)

/-- Translated from `_PatchesView._edit_label_tags`: normalize a bare string
field name to a one-element list, apply the base tag edit to the patches
dataset, restrict the requested fields to the tracked label fields, and
propagate the same edit to the source collection via `_sync_source_fcn`. -/
def edit_label_tags (v : PatchesView) (edit : TagEdit) (arg : FieldsArg) :
    Option (List SyncOp × PatchesView) :=
  let fieldsArg := normalizeArg arg
  let ds := baseEditTags v edit fieldsArg
  let v1 : PatchesView := { v with patchesDataset := ds }
  let fields := resolveFields v.labelFields fieldsArg
  match sync_source_tag_fields edit v1 fields with
  | none => none
  | some (ops, src) =>
      some (SyncOp.baseEditTags edit fieldsArg :: ops, { v1 with source := src })

/-- Whether a stored field value matches a declared label type. -/
def valueWF (t : LabelType) : FieldValue → Bool
  | .scalarVal _ => t = .scalar
  | .listVal _ => t = .list

/-- Whether an optional stored field value matches a declared label type
(a missing value always does). -/
def optValueWF (t : LabelType) : Option FieldValue → Bool
  | none => true
  | some v => valueWF t v

/-- Whether every patch of a dataset stores a value of the declared type in
the given field. -/
def patchesWF (t : LabelType) (field : String) (ds : List Patch) : Bool :=
  ds.all (fun p => optValueWF t (lookupField p.fields field))

/-- Whether every sample of a source dataset stores a value of the declared
type in the given field. -/
def sourceWF (t : LabelType) (field : String) (ds : List SrcSample) : Bool :=
  ds.all (fun s => optValueWF t (lookupField s.fields field))

/-- Whether an association list of fields has pairwise-distinct keys. -/
def keysNodup (fs : List (String × FieldValue)) : Bool :=
  decide ((fs.map (fun e => e.1)).Nodup)

/-- The documents of a `_set_labels_by_id` pair list that target the sample
with the given id, in order. -/
def docsFor (pairs : List (String × SyncDoc)) (sid : String) : List SyncDoc :=
  (pairs.filter (fun pr => decide (pr.1 = sid))).map (fun pr => pr.2)

/-- A label is present in a list, and is the only member of the list
carrying its id. -/
def containsUniq (ls : List Label) (n : Label) : Prop :=
  n ∈ ls ∧ ∀ l ∈ ls, l.id = n.id → l = n

/-- The label ids carried by a list of serialized documents, in order. -/
def docIds (ds : List SyncDoc) : List String :=
  (ds.map (fun d => d.labels.map (fun l => l.id))).flatten

/-- The accumulated effect of upserting a sequence of documents into a list
of labels. -/
def labelsFold (ds : List SyncDoc) (cur : List Label) : List Label :=
  ds.foldl (fun c d => upsertLabels c d.labels) cur

/-- Concrete example label (id "a"). -/
def exLabelA : Label := { id := "a", tags := [], data := "cat" }

/-- Concrete example label (id "b"). -/
def exLabelB : Label := { id := "b", tags := [], data := "dog" }

/-- Concrete example label (id "c"), held by a scalar field. -/
def exLabelC : Label := { id := "c", tags := [], data := "sun" }

/-- Example patch extracted from label "a" of sample "s1". -/
def exPatchA : Patch :=
  { id := "pa", sample_id := "s1", fields := [("gt", .listVal [exLabelA])] }

/-- Example patch extracted from label "b" of sample "s1". -/
def exPatchB : Patch :=
  { id := "pb", sample_id := "s1", fields := [("gt", .listVal [exLabelB])] }

/-- Example source sample "s1" carrying labels "a" and "b" in list field
"gt". -/
def exSrc : SrcSample :=
  { id := "s1", fields := [("gt", .listVal [exLabelA, exLabelB])] }

/-- Example patches view over the example source dataset, tracking the list
field "gt". -/
def exView : PatchesView :=
  { source := { root := [exSrc], selected := none },
    patchesDataset := [exPatchA, exPatchB],
    stages := [],
    labelFields := ["gt"],
    schema := [("gt", .list)] }

/-- Example patch over a scalar label field "cls" of sample "s2". -/
def exPatchC : Patch :=
  { id := "pc", sample_id := "s2", fields := [("cls", .scalarVal exLabelC)] }

/-- Example source sample "s2" with scalar label field "cls". -/
def exSrcC : SrcSample :=
  { id := "s2", fields := [("cls", .scalarVal exLabelC)] }

/-- Example patches view tracking the scalar field "cls". -/
def exViewC : PatchesView :=
  { source := { root := [exSrcC], selected := none },
    patchesDataset := [exPatchC],
    stages := [],
    labelFields := ["cls"],
    schema := [("cls", .scalar)] }

/-- Example source sample "s1" holding only label "a" (the state after
label "b" has been deleted from it). -/
def exSrcA : SrcSample :=
  { id := "s1", fields := [("gt", .listVal [exLabelA])] }

/-- Example patches view whose backing dataset has lost the patch of label
"b" while the source still holds "b": the next full-root sync must delete
"b" from the source. -/
def exViewDel : PatchesView :=
  { source := { root := [exSrc], selected := none },
    patchesDataset := [exPatchA],
    stages := [],
    labelFields := ["gt"],
    schema := [("gt", .list)] }

/-- The operation trace of the full-root sync of `exViewDel`. -/
def exOpsDel : List SyncOp :=
  [rootUpdateOp exViewDel LabelType.list "gt",
   SyncOp.deleteLabels ["b"] "gt"]

/-- The source reference produced by the full-root sync of `exViewDel`. -/
def exSrcRefDel : SourceRef :=
  { root := [exSrcA], selected := none }

/-- All labels with the given id found in the named field across a source
dataset, in order. -/
def findLabels (ds : List SrcSample) (field : String) (lid : String) :
    List Label :=
  (ds.map (fun s =>
    (optValueLabels (lookupField s.fields field)).filter
      (fun l => decide (l.id = lid)))).flatten

/-- Example tag edit: add the tag "hello". -/
def exEdit : TagEdit := TagEdit.add "hello"

/-- `exLabelA` after the example tag edit. -/
def exLabelATag : Label := { id := "a", tags := ["hello"], data := "cat" }

/-- `exLabelB` after the example tag edit. -/
def exLabelBTag : Label := { id := "b", tags := ["hello"], data := "dog" }

/-- The example source sample after the example tag edit reached both
labels. -/
def exSrcTag : SrcSample :=
  { id := "s1", fields := [("gt", .listVal [exLabelATag, exLabelBTag])] }

/-- The patches dataset of `exView` after the base tag edit. -/
def exPatchesTag : List Patch :=
  [{ id := "pa", sample_id := "s1", fields := [("gt", .listVal [exLabelATag])] },
   { id := "pb", sample_id := "s1", fields := [("gt", .listVal [exLabelBTag])] }]

/-- The view state produced by the example tag edit on `exView`. -/
def exViewTag : PatchesView :=
  { source := { root := [exSrcTag], selected := none },
    patchesDataset := exPatchesTag,
    stages := [],
    labelFields := ["gt"],
    schema := [("gt", .list)] }

/-- The operation trace of the example tag edit on `exView`. -/
def exOpsTag : List SyncOp :=
  [SyncOp.baseEditTags exEdit none,
   SyncOp.sourceEditTags exEdit "gt" ["a", "b"]]

/-- Whether an issued operation is a set-labels-by-id call for the given
field. -/
def opIsSetLabels (F : String) : SyncOp → Bool
  | .setLabels g _ _ => decide (g = F)
  | _ => false

/-- The operation trace of saving `exPatchA` through `exView`. -/
def exOpsC1 : List SyncOp :=
  [SyncOp.basePatchSave "pa",
   SyncOp.setLabels "gt" ["s1"] [SyncDoc.many [exLabelA]]]

/-- Whether an issued operation is a bulk delete-labels call for the given
field. -/
def opIsDeleteLabels (F : String) : SyncOp → Bool
  | .deleteLabels _ g => decide (g = F)
  | _ => false

/-- Whether a serialized document has the shape that the raw projection of a
well-typed field of the declared type can produce. -/
def docWF (t : LabelType) : SyncDoc → Bool
  | .one _ => t = .scalar
  | .many _ => t = .list
  | .wrapped _ => false
  | .null => true

theorem setLabelsStep_id (field : String) (s : SrcSample)
    (pr : String × SyncDoc) : (setLabelsStep field s pr).id = s.id := by
  unfold setLabelsStep
  split <;> rfl

theorem setLabelsSample_cons (field : String) (pr : String × SyncDoc)
    (rest : List (String × SyncDoc)) (s : SrcSample) :
    setLabelsSample field (pr :: rest) s =
      setLabelsSample field rest (setLabelsStep field s pr) := rfl

theorem setLabelsSample_id (field : String) (pairs : List (String × SyncDoc))
    (s : SrcSample) : (setLabelsSample field pairs s).id = s.id := by
  induction pairs generalizing s with
  | nil => rfl
  | cons pr rest ih =>
      rw [setLabelsSample_cons, ih, setLabelsStep_id]

theorem deleteLabelsSample_id (ids : List String) (field : String)
    (s : SrcSample) : (deleteLabelsSample ids field s).id = s.id := rfl

theorem lookupField_setFieldValue_self (fs : List (String × FieldValue))
    (f : String) (g : FieldValue → FieldValue) :
    lookupField (setFieldValue fs f g) f = (lookupField fs f).map g := by
  induction fs with
  | nil => rfl
  | cons e rest ih =>
      by_cases h : e.1 = f
      · simp [setFieldValue, lookupField, h]
      · simp only [setFieldValue, List.map_cons, if_neg h] at *
        simp [lookupField, h, ih]

theorem lookupField_setFieldValue_ne (fs : List (String × FieldValue))
    (f F : String) (g : FieldValue → FieldValue) (h : F ≠ f) :
    lookupField (setFieldValue fs f g) F = lookupField fs F := by
  induction fs with
  | nil => rfl
  | cons e rest ih =>
      by_cases he : e.1 = f
      · have h1 : ¬ (e.1 = F) := fun hF => h (by rw [← hF]; exact he)
        simp only [setFieldValue, List.map_cons, if_pos he, lookupField,
          if_neg h1]
        exact ih
      · by_cases heF : e.1 = F
        · simp only [setFieldValue, List.map_cons, if_neg he, lookupField,
            if_pos heF]
        · simp only [setFieldValue, List.map_cons, if_neg he, lookupField,
            if_neg heF]
          exact ih

theorem lookupField_setLabelsStep_ne (field F : String) (s : SrcSample)
    (pr : String × SyncDoc) (h : F ≠ field) :
    lookupField (setLabelsStep field s pr).fields F = lookupField s.fields F := by
  unfold setLabelsStep
  split
  · dsimp only
    exact lookupField_setFieldValue_ne _ _ _ _ h
  · rfl

theorem lookupField_setLabelsStep_self (field : String) (s : SrcSample)
    (pr : String × SyncDoc) :
    lookupField (setLabelsStep field s pr).fields field =
      if s.id = pr.1 then
        (lookupField s.fields field).map (fun v => applySetDoc v pr.2)
      else lookupField s.fields field := by
  unfold setLabelsStep
  split
  · dsimp only
    exact lookupField_setFieldValue_self _ _ _
  · rfl

theorem lookupField_setLabelsSample_ne (field F : String)
    (pairs : List (String × SyncDoc)) (s : SrcSample) (h : F ≠ field) :
    lookupField (setLabelsSample field pairs s).fields F =
      lookupField s.fields F := by
  induction pairs generalizing s with
  | nil => rfl
  | cons pr rest ih =>
      rw [setLabelsSample_cons, ih, lookupField_setLabelsStep_ne _ _ _ _ h]

theorem docsFor_cons (pr : String × SyncDoc) (rest : List (String × SyncDoc))
    (sid : String) :
    docsFor (pr :: rest) sid =
      if pr.1 = sid then pr.2 :: docsFor rest sid else docsFor rest sid := by
  by_cases h : pr.1 = sid <;> simp [docsFor, List.filter_cons, h]

theorem lookupField_setLabelsSample_self (field : String)
    (pairs : List (String × SyncDoc)) (s : SrcSample) :
    lookupField (setLabelsSample field pairs s).fields field =
      (lookupField s.fields field).map
        (fun v => (docsFor pairs s.id).foldl applySetDoc v) := by
  induction pairs generalizing s with
  | nil =>
      simp [setLabelsSample, docsFor, Option.map_id']
  | cons pr rest ih =>
      rw [setLabelsSample_cons, ih, setLabelsStep_id,
        lookupField_setLabelsStep_self, docsFor_cons]
      by_cases h : s.id = pr.1
      · rw [if_pos h, if_pos (by rw [h])]
        cases lookupField s.fields field <;> simp
      · rw [if_neg h, if_neg (by intro hc; exact h hc.symm)]

theorem lookupField_deleteLabelsSample_ne (ids : List String)
    (field F : String) (s : SrcSample) (h : F ≠ field) :
    lookupField (deleteLabelsSample ids field s).fields F =
      lookupField s.fields F := by
  show lookupField (s.fields.filterMap _) F = _
  induction s.fields with
  | nil => rfl
  | cons e rest ih =>
      by_cases he : e.1 = field
      · have h1 : ¬ (e.1 = F) := fun hF => h (by rw [← hF]; exact he)
        cases hd : deleteFromValue ids e.2 with
        | none =>
            rw [List.filterMap_cons_none (by rw [if_pos he, hd]; rfl),
              lookupField, if_neg h1]
            exact ih
        | some v =>
            rw [List.filterMap_cons_some (by rw [if_pos he, hd]; rfl),
              lookupField, lookupField, if_neg h1, if_neg h1]
            exact ih
      · rw [List.filterMap_cons_some (by rw [if_neg he]),
          lookupField, lookupField]
        by_cases heF : e.1 = F
        · rw [if_pos heF, if_pos heF]
        · rw [if_neg heF, if_neg heF]
          exact ih

theorem lookupField_filterMap_none_of_not_mem (ids : List String)
    (field : String) (fs : List (String × FieldValue))
    (h : field ∉ fs.map (fun e => e.1)) :
    lookupField (fs.filterMap (fun e =>
      if e.1 = field then (deleteFromValue ids e.2).map (fun v => (e.1, v))
      else some e)) field = none := by
  induction fs with
  | nil => rfl
  | cons e rest ih =>
      simp only [List.map_cons, List.mem_cons, not_or] at h
      have he : ¬ (e.1 = field) := fun hc => h.1 hc.symm
      rw [List.filterMap_cons_some (by rw [if_neg he]), lookupField, if_neg he]
      exact ih h.2

theorem lookupField_delFields_self (ids : List String) (field : String)
    (fs : List (String × FieldValue))
    (hk : (fs.map (fun e => e.1)).Nodup) :
    lookupField (fs.filterMap (fun e =>
      if e.1 = field then (deleteFromValue ids e.2).map (fun v => (e.1, v))
      else some e)) field =
      (lookupField fs field).bind (deleteFromValue ids) := by
  induction fs with
  | nil => rfl
  | cons e rest ih =>
      simp only [List.map_cons, List.nodup_cons] at hk
      by_cases he : e.1 = field
      · rw [lookupField, if_pos he]
        cases hd : deleteFromValue ids e.2 with
        | none =>
            rw [List.filterMap_cons_none (by rw [if_pos he, hd]; rfl),
              Option.some_bind, hd]
            have hnm : field ∉ rest.map (fun e => e.1) := by
              rw [← he]; exact hk.1
            exact lookupField_filterMap_none_of_not_mem ids field rest hnm
        | some v =>
            rw [List.filterMap_cons_some (by rw [if_pos he, hd]; rfl),
              Option.some_bind, hd, lookupField, if_pos he]
      · rw [List.filterMap_cons_some (by rw [if_neg he]), lookupField,
          lookupField, if_neg he, if_neg he]
        exact ih hk.2

theorem lookupField_deleteLabelsSample_self (ids : List String)
    (field : String) (s : SrcSample)
    (hk : (s.fields.map (fun e => e.1)).Nodup) :
    lookupField (deleteLabelsSample ids field s).fields field =
      (lookupField s.fields field).bind (deleteFromValue ids) :=
  lookupField_delFields_self ids field s.fields hk

theorem deleteLabelsSample_labels_not_mem (ids : List String)
    (field : String) (s : SrcSample) (v : FieldValue)
    (h : lookupField (deleteLabelsSample ids field s).fields field = some v) :
    ∀ l ∈ valueLabels v, l.id ∉ ids := by
  revert h
  show lookupField (s.fields.filterMap _) field = some v → _
  induction s.fields with
  | nil => intro h; exact absurd h (by simp [lookupField])
  | cons e rest ih =>
      intro h
      by_cases he : e.1 = field
      · cases hd : deleteFromValue ids e.2 with
        | none =>
            rw [List.filterMap_cons_none (by rw [if_pos he, hd]; rfl)] at h
            exact ih h
        | some w =>
            rw [List.filterMap_cons_some (by rw [if_pos he, hd]; rfl),
              lookupField, if_pos he] at h
            cases h
            cases e2 : e.2 with
            | scalarVal l =>
                rw [e2] at hd
                simp only [deleteFromValue] at hd
                split at hd
                · exact absurd hd (by simp)
                · cases hd
                  intro l' hl
                  simp only [valueLabels, List.mem_singleton] at hl
                  subst hl
                  assumption
            | listVal ls =>
                rw [e2] at hd
                simp only [deleteFromValue] at hd
                cases hd
                intro l' hl
                simp only [valueLabels, List.mem_filter] at hl
                have h2 := hl.2
                simpa using h2
      · rw [List.filterMap_cons_some (by rw [if_neg he]), lookupField,
          if_neg he] at h
        exact ih h

theorem project_ids_eq_of_wf (t : LabelType) (fv : Option FieldValue)
    (h : optValueWF t fv = true) :
    project_ids t fv = (optValueLabels fv).map (fun l => l.id) := by
  cases fv with
  | none => rfl
  | some v =>
      cases v with
      | scalarVal l =>
          cases t with
          | scalar => rfl
          | list => simp [optValueWF, valueWF] at h
      | listVal ls =>
          cases t with
          | scalar => simp [optValueWF, valueWF] at h
          | list => rfl

theorem mem_project_ids (y : String) (t : LabelType) (fv : Option FieldValue)
    (h : y ∈ project_ids t fv) :
    ∃ l ∈ optValueLabels fv, l.id = y := by
  cases fv with
  | none => exact absurd h (by simp [project_ids])
  | some v =>
      cases v with
      | scalarVal l =>
          cases t with
          | scalar =>
              simp only [project_ids, List.mem_singleton] at h
              exact ⟨l, by simp [optValueLabels, valueLabels], h.symm⟩
          | list => exact absurd h (by simp [project_ids])
      | listVal ls =>
          cases t with
          | scalar => exact absurd h (by simp [project_ids])
          | list =>
              simp only [project_ids, List.mem_map] at h
              obtain ⟨l, hl, hy⟩ := h
              exact ⟨l, by simpa [optValueLabels, valueLabels] using hl, hy⟩

theorem project_ids_deleteFromValue (ids : List String) (t : LabelType)
    (v v' : FieldValue) (h : deleteFromValue ids v = some v') :
    ∀ y ∈ project_ids t (some v'), y ∉ ids ∧ y ∈ project_ids t (some v) := by
  cases v with
  | scalarVal l =>
      simp only [deleteFromValue] at h
      split at h
      · exact absurd h (by simp)
      · cases h
        intro y hy
        cases t with
        | scalar =>
            simp only [project_ids, List.mem_singleton] at hy
            subst hy
            exact ⟨by assumption, by simp [project_ids]⟩
        | list => exact absurd hy (by simp [project_ids])
  | listVal ls =>
      simp only [deleteFromValue] at h
      cases h
      intro y hy
      cases t with
      | scalar => exact absurd hy (by simp [project_ids])
      | list =>
          simp only [project_ids, List.mem_map, List.mem_filter] at hy
          obtain ⟨l, ⟨hl, hni⟩, hy⟩ := hy
          subst hy
          refine ⟨by simpa using hni, ?_⟩
          simp only [project_ids, List.mem_map]
          exact ⟨l, hl, rfl⟩

theorem mem_setDiff (x : String) (xs ys : List String) :
    x ∈ setDiff xs ys ↔ x ∈ xs ∧ x ∉ ys := by
  simp [setDiff, List.mem_dedup, List.mem_filter]

theorem setDiff_isEmpty_iff (xs ys : List String) :
    (setDiff xs ys).isEmpty = true ↔ ∀ x ∈ xs, x ∈ ys := by
  rw [List.isEmpty_iff, List.eq_nil_iff_forall_not_mem]
  constructor
  · intro h x hx
    by_contra hny
    exact h x ((mem_setDiff x xs ys).mpr ⟨hx, hny⟩)
  · intro h x hx
    obtain ⟨h1, h2⟩ := (mem_setDiff x xs ys).mp hx
    exact h2 (h x h1)

theorem set_labels_by_id_map_id (field : String) (sids : List String)
    (docs : List SyncDoc) (ds : List SrcSample) :
    (set_labels_by_id field sids docs ds).map (fun s => s.id) =
      ds.map (fun s => s.id) := by
  unfold set_labels_by_id
  rw [List.map_map]
  exact List.map_congr_left (fun s _ => setLabelsSample_id _ _ _)

theorem delete_labels_map_id (ids : List String) (field : String)
    (ds : List SrcSample) :
    (delete_labels ids field ds).map (fun s => s.id) = ds.map (fun s => s.id) := by
  unfold delete_labels
  rw [List.map_map]
  exact List.map_congr_left (fun s _ => deleteLabelsSample_id _ _ _)

theorem srcVisible_map_of_id (ref : SourceRef) (fn : SrcSample → SrcSample)
    (hid : ∀ s, (fn s).id = s.id) :
    srcVisible { root := ref.root.map fn, selected := ref.selected } =
      (srcVisible ref).map fn := by
  cases hs : ref.selected with
  | none => simp [srcVisible, hs]
  | some ids =>
      simp only [srcVisible, hs]
      rw [List.filter_map]
      congr 1
      exact List.filter_congr (fun s _ => by
        show decide ((fn s).id ∈ ids) = decide (s.id ∈ ids)
        rw [hid])

theorem replaceIn_eq_self (new : List Label) (l : Label)
    (h : ∀ n ∈ new, n.id ≠ l.id) : replaceIn new l = l := by
  unfold replaceIn
  cases hf : new.find? (fun n => decide (n.id = l.id)) with
  | none => rfl
  | some m =>
      have hm := List.find?_some hf
      have hmem := List.mem_of_find?_eq_some hf
      simp only [decide_eq_true_eq] at hm
      exact absurd hm (h m hmem)

theorem find?_id_of_nodup (new : List Label) (n : Label)
    (hnd : (new.map (fun l => l.id)).Nodup) (hn : n ∈ new) (x : String)
    (hx : x = n.id) : new.find? (fun m => decide (m.id = x)) = some n := by
  cases hf : new.find? (fun m => decide (m.id = x)) with
  | none =>
      rw [List.find?_eq_none] at hf
      have hc := hf n hn
      simp only [decide_eq_true_eq] at hc
      exact absurd hx.symm hc
  | some m =>
      have hm := List.find?_some hf
      have hmem := List.mem_of_find?_eq_some hf
      simp only [decide_eq_true_eq] at hm
      have := List.inj_on_of_nodup_map hnd hmem hn (by rw [hm, hx])
      rw [this]

theorem upsert_containsUniq_of_mem (cur new : List Label) (n : Label)
    (hnd : (new.map (fun l => l.id)).Nodup) (hn : n ∈ new) :
    containsUniq (upsertLabels cur new) n := by
  constructor
  · by_cases hc : ∃ l ∈ cur, l.id = n.id
    · obtain ⟨l, hl, hlid⟩ := hc
      apply List.mem_append_left
      rw [List.mem_map]
      refine ⟨l, hl, ?_⟩
      unfold replaceIn
      rw [find?_id_of_nodup new n hnd hn l.id hlid]
    · apply List.mem_append_right
      rw [List.mem_filter]
      refine ⟨hn, ?_⟩
      unfold isNewLabel
      simp only [decide_eq_true_eq]
      intro l hl hlid
      exact hc ⟨l, hl, hlid⟩
  · intro x hx hxid
    rcases List.mem_append.mp hx with hx | hx
    · rw [List.mem_map] at hx
      obtain ⟨l, hl, hrep⟩ := hx
      unfold replaceIn at hrep
      cases hf : List.find? (fun m => decide (m.id = l.id)) new with
      | none =>
          rw [hf] at hrep
          rw [List.find?_eq_none] at hf
          have := hf n hn
          simp only [decide_eq_true_eq] at this
          rw [← hrep] at hxid
          exact absurd (by rw [hxid]) this
      | some m =>
          rw [hf] at hrep
          have hmem := List.mem_of_find?_eq_some hf
          rw [← hrep] at hxid
          exact hrep ▸ List.inj_on_of_nodup_map hnd hmem hn hxid
    · rw [List.mem_filter] at hx
      exact List.inj_on_of_nodup_map hnd hx.1 hn hxid

theorem upsert_containsUniq_preserve (cur new : List Label) (n : Label)
    (hni : n.id ∉ new.map (fun l => l.id)) (h : containsUniq cur n) :
    containsUniq (upsertLabels cur new) n := by
  have hne : ∀ m ∈ new, m.id ≠ n.id := by
    intro m hm hc
    exact hni (hc ▸ List.mem_map_of_mem (fun l => l.id) hm)
  constructor
  · apply List.mem_append_left
    rw [List.mem_map]
    exact ⟨n, h.1, replaceIn_eq_self new n hne⟩
  · intro x hx hxid
    rcases List.mem_append.mp hx with hx | hx
    · rw [List.mem_map] at hx
      obtain ⟨l, hl, hrep⟩ := hx
      unfold replaceIn at hrep
      cases hf : List.find? (fun m => decide (m.id = l.id)) new with
      | none =>
          rw [hf] at hrep
          exact h.2 x (hrep ▸ hl) hxid
      | some m =>
          rw [hf] at hrep
          have hmem := List.mem_of_find?_eq_some hf
          rw [← hrep] at hxid
          exact absurd hxid (hne m hmem)
    · rw [List.mem_filter] at hx
      exact absurd hxid (hne x hx.1)

theorem upsert_eq_self (cur new : List Label)
    (h : ∀ n ∈ new, containsUniq cur n) : upsertLabels cur new = cur := by
  unfold upsertLabels
  have h1 : cur.map (replaceIn new) = cur := by
    have := List.map_congr_left (l := cur) (f := replaceIn new) (g := fun l => l)
      (fun l hl => by
        unfold replaceIn
        cases hf : List.find? (fun m => decide (m.id = l.id)) new with
        | none => rfl
        | some m =>
            have hm := List.find?_some hf
            have hmem := List.mem_of_find?_eq_some hf
            simp only [decide_eq_true_eq] at hm
            exact ((h m hmem).2 l hl hm.symm).symm)
    rw [this, List.map_id']
  have h2 : new.filter (isNewLabel cur) = [] := by
    rw [List.filter_eq_nil_iff]
    intro n hn
    unfold isNewLabel
    simp only [decide_eq_true_eq, not_forall]
    exact ⟨n, (h n hn).1, by simp⟩
  rw [h1, h2, List.append_nil]

theorem containsUniq_filter (ls : List Label) (n : Label) (P : Label → Bool)
    (hP : P n = true) (h : containsUniq ls n) : containsUniq (ls.filter P) n := by
  refine ⟨List.mem_filter.mpr ⟨h.1, hP⟩, ?_⟩
  intro x hx hxid
  exact h.2 x (List.mem_filter.mp hx).1 hxid

theorem docIds_cons (d : SyncDoc) (ds : List SyncDoc) :
    docIds (d :: ds) = d.labels.map (fun l => l.id) ++ docIds ds := by
  simp [docIds]

theorem labelsFold_cons (d : SyncDoc) (ds : List SyncDoc) (cur : List Label) :
    labelsFold (d :: ds) cur = labelsFold ds (upsertLabels cur d.labels) := rfl

theorem labelsFold_preserve (ds : List SyncDoc) (cur : List Label) (n : Label)
    (hni : n.id ∉ docIds ds) (h : containsUniq cur n) :
    containsUniq (labelsFold ds cur) n := by
  induction ds generalizing cur with
  | nil => exact h
  | cons d rest ih =>
      rw [docIds_cons, List.mem_append, not_or] at hni
      rw [labelsFold_cons]
      exact ih _ hni.2 (upsert_containsUniq_preserve cur d.labels n hni.1 h)

theorem labelsFold_establish (ds : List SyncDoc) (cur : List Label)
    (hnd : (docIds ds).Nodup) :
    ∀ d ∈ ds, ∀ n ∈ d.labels, containsUniq (labelsFold ds cur) n := by
  induction ds generalizing cur with
  | nil => intro d hd; exact absurd hd (by simp)
  | cons d0 rest ih =>
      rw [docIds_cons, List.nodup_append] at hnd
      intro d hd n hn
      rcases List.mem_cons.mp hd with hd | hd
      · subst hd
        rw [labelsFold_cons]
        apply labelsFold_preserve
        · intro hc
          exact hnd.2.2 (List.mem_map_of_mem (fun l => l.id) hn) hc
        · exact upsert_containsUniq_of_mem cur d.labels n hnd.1 hn
      · rw [labelsFold_cons]
        exact ih _ hnd.2.1 d hd n hn

theorem foldl_applySetDoc_listVal (ds : List SyncDoc) (cur : List Label) :
    ds.foldl applySetDoc (FieldValue.listVal cur) =
      FieldValue.listVal (labelsFold ds cur) := by
  induction ds generalizing cur with
  | nil => rfl
  | cons d rest ih =>
      rw [List.foldl_cons, labelsFold_cons]
      have : applySetDoc (FieldValue.listVal cur) d =
          FieldValue.listVal (upsertLabels cur d.labels) := by
        cases d <;> rfl
      rw [this, ih]

theorem sync_source_root_field_shape (v : PatchesView) (field : String)
    (ops : List SyncOp) (src' : SourceRef)
    (h : sync_source_root_field v field = some (ops, src')) :
    ∃ t, lookupType v.schema field = some t ∧
      ((rootDeleteIds v t field = [] ∧
        ops = [rootUpdateOp v t field] ∧
        src' = rootUpdateRef v t field) ∨
       (rootDeleteIds v t field ≠ [] ∧
        ops = [rootUpdateOp v t field,
               SyncOp.deleteLabels (rootDeleteIds v t field) field] ∧
        src' = { rootUpdateRef v t field with
                 root := delete_labels (rootDeleteIds v t field) field
                   (rootUpdateRef v t field).root })) := by
  cases ht : lookupType v.schema field with
  | none =>
      rw [sync_source_root_field, ht] at h
      exact absurd h (by simp)
  | some t =>
      refine ⟨t, rfl, ?_⟩
      rw [sync_source_root_field, ht] at h
      simp only at h
      split at h
      · rename_i hemp
        rw [List.isEmpty_iff] at hemp
        cases h
        exact Or.inl ⟨hemp, rfl, rfl⟩
      · rename_i hemp
        rw [List.isEmpty_iff] at hemp
        cases h
        exact Or.inr ⟨hemp, rfl, rfl⟩

/-- Claim C4: in single-sample sync the document forwarded to the source
depends on the field's declared label type — for a list-typed label field
the value passed to set-labels-by-id is the inner list of label documents
(the container unwrapped via the type's list-field attribute), not the
wrapping container document, while for a scalar label field the value
passed is the bare Mongo-serialized label document. -/
theorem claim_C4_list_vs_scalar (v : PatchesView) (p : Patch) (field : String) :
    (∀ ls, lookupType v.schema field = some LabelType.list →
      lookupField p.fields field = some (FieldValue.listVal ls) →
      sync_source_sample_field v p field =
        some (sampleSyncResult v p field (SyncDoc.many ls))) ∧
    (∀ l, lookupType v.schema field = some LabelType.scalar →
      lookupField p.fields field = some (FieldValue.scalarVal l) →
      sync_source_sample_field v p field =
        some (sampleSyncResult v p field (SyncDoc.one l))) := by
  constructor
  · intro ls ht hv
    rw [sync_source_sample_field, ht, hv]
    simp [patchFieldDoc, field_to_mongo, unwrapListDoc]
  · intro l ht hv
    rw [sync_source_sample_field, ht, hv]
    simp [patchFieldDoc, field_to_mongo]

theorem claim_C4_witness :
    sync_source_sample_field exView exPatchA "gt" =
      some (sampleSyncResult exView exPatchA "gt" (SyncDoc.many [exLabelA])) ∧
    sync_source_sample_field exViewC exPatchC "cls" =
      some (sampleSyncResult exViewC exPatchC "cls" (SyncDoc.one exLabelC)) :=
  ⟨(claim_C4_list_vs_scalar exView exPatchA "gt").1 [exLabelA]
      (by decide) (by decide),
   (claim_C4_list_vs_scalar exViewC exPatchC "cls").2 exLabelC
      (by decide) (by decide)⟩

/-- Claim C6: when the delete-id set computed by a full-root sync (source
ids minus patches-dataset ids) is empty, the bulk delete-labels call is not
issued at all, and the deletion phase does not raise solely because the set
is empty — the call returns normally with only the update-phase call
issued. -/
theorem claim_C6_skip_empty_delete (v : PatchesView) (field : String)
    (t : LabelType) (ht : lookupType v.schema field = some t)
    (hempty : rootDeleteIds v t field = []) :
    sync_source_root_field v field =
      some ([rootUpdateOp v t field], rootUpdateRef v t field) ∧
    (∀ ops src', sync_source_root_field v field = some (ops, src') →
      ∀ D f, SyncOp.deleteLabels D f ∉ ops) := by
  have h1 : sync_source_root_field v field =
      some ([rootUpdateOp v t field], rootUpdateRef v t field) := by
    rw [sync_source_root_field, ht]
    simp [hempty]
  refine ⟨h1, ?_⟩
  intro ops src' h D f hmem
  rw [h1] at h
  simp only [Option.some.injEq, Prod.mk.injEq] at h
  obtain ⟨hops, _⟩ := h
  subst hops
  simp only [List.mem_singleton] at hmem
  exact absurd hmem (by simp [rootUpdateOp])

theorem claim_C6_witness :
    sync_source_root_field exView "gt" =
      some ([rootUpdateOp exView LabelType.list "gt"],
            rootUpdateRef exView LabelType.list "gt") :=
  (claim_C6_skip_empty_delete exView "gt" LabelType.list (by decide)
    (by decide)).1

/-- Claim C9: within a single full-root sync call for a field the update
phase (the set-labels-by-id call) always precedes the deletion phase in the
sequence of issued calls, and the patches-dataset id set subtracted during
deletion detection is gathered by the same aggregation pass over the same
patches-dataset snapshot that supplies the update payload. -/
theorem claim_C9_update_before_delete (v : PatchesView) (field : String)
    (ops : List SyncOp) (src' : SourceRef)
    (h : sync_source_root_field v field = some (ops, src')) :
    ∃ t, lookupType v.schema field = some t ∧
      ops.head? = some (rootUpdateOp v t field) ∧
      (ops = [rootUpdateOp v t field] ∨
       ops = [rootUpdateOp v t field,
              SyncOp.deleteLabels (rootDeleteIds v t field) field]) ∧
      rootDeleteIds v t field =
        setDiff (srcFieldIds t field (srcVisible (rootUpdateRef v t field)))
          (aggLabelIds t field v.patchesDataset) := by
  obtain ⟨t, ht, hc⟩ := sync_source_root_field_shape v field ops src' h
  refine ⟨t, ht, ?_, ?_, rfl⟩
  · rcases hc with ⟨_, hops, _⟩ | ⟨_, hops, _⟩ <;> rw [hops] <;> rfl
  · rcases hc with ⟨_, hops, _⟩ | ⟨_, hops, _⟩
    · exact Or.inl hops
    · exact Or.inr hops

theorem claim_C9_witness :
    ([rootUpdateOp exView LabelType.list "gt"] : List SyncOp).head? =
      some (rootUpdateOp exView LabelType.list "gt") := by
  obtain ⟨t, ht, hhead, _, _⟩ := claim_C9_update_before_delete exView "gt"
    [rootUpdateOp exView LabelType.list "gt"]
    (rootUpdateRef exView LabelType.list "gt") (by decide)
  have h2 : (some t : Option LabelType) = some LabelType.list :=
    ht.symm.trans (by decide)
  injection h2 with h3
  subst h3
  exact hhead

/-- Claim C8: the two bulk sync paths aggregate over different collections —
the per-field sync triggered by set_values aggregates (sample-id, raw label
value) pairs over the current view itself, so active skip/limit/filter
stages restrict which patches are synced, whereas the full-root sync
triggered by the view's save aggregates over the full backing patches
dataset, ignoring the view's own stages. -/
theorem claim_C8_aggregation_asymmetry (v : PatchesView) (field : String)
    (t : LabelType) (ht : lookupType v.schema field = some t) :
    sync_source_view_field v field =
      some ([viewSyncOp v t field], viewSyncRef v t field) ∧
    (∀ ops src', sync_source_root_field v field = some (ops, src') →
      ops.head? = some (rootUpdateOp v t field)) ∧
    (∀ fieldName, ((fieldName.splitOn ".").headD fieldName) = field →
      field ∈ v.labelFields →
      set_values v fieldName =
        some ([SyncOp.baseSetValues fieldName, viewSyncOp v t field],
              { v with source := viewSyncRef v t field })) := by
  have h1 : sync_source_view_field v field =
      some ([viewSyncOp v t field], viewSyncRef v t field) := by
    rw [sync_source_view_field, ht]
  refine ⟨h1, ?_, ?_⟩
  · intro ops src' h
    obtain ⟨t', ht', hc⟩ := sync_source_root_field_shape v field ops src' h
    have h2 : (some t' : Option LabelType) = some t := ht'.symm.trans ht
    injection h2 with h3
    subst h3
    rcases hc with ⟨_, hops, _⟩ | ⟨_, hops, _⟩ <;> rw [hops] <;> rfl
  · intro fieldName hroot hmem
    rw [set_values]
    simp only [hroot, if_pos hmem, h1]

theorem claim_C8_witness :
    sync_source_view_field exView "gt" =
      some ([viewSyncOp exView LabelType.list "gt"],
            viewSyncRef exView LabelType.list "gt") :=
  (claim_C8_aggregation_asymmetry exView "gt" LabelType.list (by decide)).1

theorem sync_root_fields_cover (v : PatchesView) (fields : List String)
    (ops : List SyncOp) (src : SourceRef)
    (h : sync_source_root_fields v fields = some (ops, src)) :
    ∀ g ∈ fields, ∃ sids docs, SyncOp.setLabels g sids docs ∈ ops := by
  induction fields generalizing v ops src with
  | nil => intro g hg; exact absurd hg (by simp)
  | cons f rest ih =>
      rw [sync_source_root_fields] at h
      cases h1 : sync_source_root_field v f with
      | none => rw [h1] at h; exact absurd h (by simp)
      | some pr =>
          obtain ⟨ops1, src1⟩ := pr
          rw [h1] at h
          simp only at h
          cases h2 : sync_source_root_fields { v with source := src1 } rest with
          | none => rw [h2] at h; exact absurd h (by simp)
          | some pr2 =>
              obtain ⟨ops2, src2⟩ := pr2
              rw [h2] at h
              simp only [Option.some.injEq, Prod.mk.injEq] at h
              obtain ⟨hops, _⟩ := h
              subst hops
              intro g hg
              rcases List.mem_cons.mp hg with hg | hg
              · subst hg
                obtain ⟨t, ht, hc⟩ := sync_source_root_field_shape _ _ _ _ h1
                rcases hc with ⟨_, hops1, _⟩ | ⟨_, hops1, _⟩ <;> subst hops1
                · exact ⟨aggSampleIds v.patchesDataset,
                    aggDocs t g v.patchesDataset,
                    List.mem_append_left _ (by simp [rootUpdateOp])⟩
                · exact ⟨aggSampleIds v.patchesDataset,
                    aggDocs t g v.patchesDataset,
                    List.mem_append_left _ (by simp [rootUpdateOp])⟩
              · obtain ⟨sids, docs, hmem⟩ := ih _ _ _ h2 g hg
                exact ⟨sids, docs, List.mem_append_right _ hmem⟩

/-- Claim C5: in the view's save and tag-edit entry points a bare string
field name is normalized to a one-element list, an explicit field list is
intersected with the view's tracked label fields, an untracked field is
silently excluded from sync (no error, no source-collection sync call)
while the base write still occurs, and an absent fields argument syncs all
tracked label fields. -/
theorem claim_C5_field_filtering (v : PatchesView) (f : String)
    (edit : TagEdit) (hf : f ∉ v.labelFields) :
    view_save v (FieldsArg.str f) =
      some ([SyncOp.baseSave (some [f])], v) ∧
    edit_label_tags v edit (FieldsArg.str f) =
      some ([SyncOp.baseEditTags edit (some [f])],
            { v with patchesDataset := baseEditTags v edit (some [f]) }) ∧
    resolveFields v.labelFields (normalizeArg FieldsArg.all) = v.labelFields ∧
    (∀ fs, resolveFields v.labelFields (normalizeArg (FieldsArg.list fs)) =
      fs.filter (fun x => decide (x ∈ v.labelFields))) ∧
    (∀ ops v', view_save v FieldsArg.all = some (ops, v') →
      ∀ g ∈ v.labelFields, ∃ sids docs, SyncOp.setLabels g sids docs ∈ ops) := by
  have hfil : ([f].filter (fun x => decide (x ∈ v.labelFields))) = [] := by
    simp [hf]
  refine ⟨?_, ?_, rfl, fun fs => rfl, ?_⟩
  · rw [view_save]
    simp only [normalizeArg, resolveFields, hfil, sync_source_root_fields]
  · rw [edit_label_tags]
    simp only [normalizeArg, resolveFields, hfil, sync_source_tag_fields]
  · intro ops v' h
    rw [view_save] at h
    simp only [normalizeArg, resolveFields] at h
    cases h1 : sync_source_root_fields v v.labelFields with
    | none => rw [h1] at h; exact absurd h (by simp)
    | some pr =>
        obtain ⟨ops0, src0⟩ := pr
        rw [h1] at h
        simp only [Option.some.injEq, Prod.mk.injEq] at h
        obtain ⟨hops, _⟩ := h
        subst hops
        intro g hg
        obtain ⟨sids, docs, hmem⟩ := sync_root_fields_cover _ _ _ _ h1 g hg
        exact ⟨sids, docs, List.mem_cons_of_mem _ hmem⟩

theorem claim_C5_witness :
    view_save exView (FieldsArg.str "other") =
      some ([SyncOp.baseSave (some ["other"])], exView) :=
  (claim_C5_field_filtering exView "other" (TagEdit.add "t") (by decide)).1

theorem delete_labels_purges (D : List String) (field : String)
    (ds : List SrcSample) :
    ∀ s' ∈ delete_labels D field ds, ∀ vv,
      lookupField s'.fields field = some vv → ∀ l ∈ valueLabels vv, l.id ∉ D := by
  intro s' hs' vv hvv l hl
  unfold delete_labels at hs'
  rw [List.mem_map] at hs'
  obtain ⟨s0, _, heq⟩ := hs'
  subst heq
  exact deleteLabelsSample_labels_not_mem D field s0 vv hvv l hl

/-- Claim C10: in the deletion phase of full-root sync the set of existing
label ids is read from the source collection as held by the view (possibly
a filtered view over the root dataset), so only label ids visible through
that reference can enter the delete set, while the resulting bulk delete is
applied to the underlying root dataset itself: every sample of the root
dataset, visible through the reference or not, is purged of the deleted
ids. -/
theorem claim_C10_delete_scope (v : PatchesView) (field : String)
    (ops : List SyncOp) (src' : SourceRef) (D : List String)
    (h : sync_source_root_field v field = some (ops, src'))
    (hdel : SyncOp.deleteLabels D field ∈ ops) :
    ∃ t, lookupType v.schema field = some t ∧
      (∀ x ∈ D, x ∈ srcFieldIds t field (srcVisible (rootUpdateRef v t field))) ∧
      src'.selected = v.source.selected ∧
      src'.root = delete_labels D field (rootUpdateRef v t field).root ∧
      (∀ s' ∈ src'.root, ∀ vv, lookupField s'.fields field = some vv →
        ∀ l ∈ valueLabels vv, l.id ∉ D) := by
  obtain ⟨t, ht, hc⟩ := sync_source_root_field_shape v field ops src' h
  rcases hc with ⟨_, hops, _⟩ | ⟨_, hops, hsrc⟩
  · subst hops
    simp only [List.mem_singleton] at hdel
    exact absurd hdel (by simp [rootUpdateOp])
  · subst hops
    have hD : D = rootDeleteIds v t field := by
      rcases List.mem_cons.mp hdel with hdel | hdel
      · exact absurd hdel (by simp [rootUpdateOp])
      · simp only [List.mem_singleton, SyncOp.deleteLabels.injEq] at hdel
        exact hdel.1
    subst hD
    refine ⟨t, ht, ?_, ?_, ?_, ?_⟩
    · intro x hx
      rw [rootDeleteIds, mem_setDiff] at hx
      exact hx.1
    · rw [hsrc]; rfl
    · rw [hsrc]
    · intro s' hs' vv hvv l hl
      rw [hsrc] at hs'
      exact delete_labels_purges _ field _ s' hs' vv hvv l hl

theorem claim_C10_witness :
    exSrcRefDel.root =
      delete_labels ["b"] "gt" (rootUpdateRef exViewDel LabelType.list "gt").root := by
  obtain ⟨t, ht, _, _, hroot, _⟩ := claim_C10_delete_scope exViewDel "gt"
    exOpsDel exSrcRefDel ["b"] (by decide) (by decide)
  have h2 : (some t : Option LabelType) = some LabelType.list :=
    ht.symm.trans (by decide)
  injection h2 with h3
  subst h3
  exact hroot

theorem map_id_of_mem {α : Type} (l : List α) (f : α → α)
    (h : ∀ x ∈ l, f x = x) : l.map f = l := by
  induction l with
  | nil => rfl
  | cons a rest ih =>
      rw [List.map_cons, h a (by simp), ih (fun x hx => h x (by simp [hx]))]

theorem lookupField_map_keyfun (fs : List (String × FieldValue)) (F : String)
    (w : String → FieldValue → FieldValue) :
    lookupField (fs.map (fun e => (e.1, w e.1 e.2))) F =
      (lookupField fs F).map (w F) := by
  induction fs with
  | nil => rfl
  | cons e rest ih =>
      by_cases he : e.1 = F
      · simp only [List.map_cons, lookupField, he, if_pos, Option.map_some']
      · simp only [List.map_cons, lookupField]
        rw [if_neg he, if_neg he]
        exact ih

theorem applyEditLabel_id (edit : TagEdit) (l : Label) :
    (applyEditLabel edit l).id = l.id := rfl

theorem editIf_id (edit : TagEdit) (ids : List String) (l : Label) :
    (if l.id ∈ ids then applyEditLabel edit l else l).id = l.id := by
  split <;> rfl

theorem project_ids_editValueTags (edit : TagEdit) (t : LabelType)
    (vv : FieldValue) :
    project_ids t (some (editValueTags edit vv)) = project_ids t (some vv) := by
  cases vv with
  | scalarVal l => cases t <;> rfl
  | listVal ls =>
      cases t with
      | scalar => rfl
      | list =>
          simp only [editValueTags, project_ids, List.map_map]
          exact List.map_congr_left (fun l _ => rfl)

theorem project_ids_editValueTagsIf (edit : TagEdit) (ids : List String)
    (t : LabelType) (vv : FieldValue) :
    project_ids t (some (editValueTagsIf edit ids vv)) =
      project_ids t (some vv) := by
  cases vv with
  | scalarVal l =>
      cases t with
      | scalar =>
          simp only [editValueTagsIf, project_ids]
          rw [editIf_id]
      | list => rfl
  | listVal ls =>
      cases t with
      | scalar => rfl
      | list =>
          simp only [editValueTagsIf, project_ids, List.map_map]
          exact List.map_congr_left (fun l _ => editIf_id edit ids l)

theorem applyStage_map (st : Stage) (ds : List Patch) (g : Patch → Patch)
    (hid : ∀ p, (g p).id = p.id) :
    applyStage st (ds.map g) = (applyStage st ds).map g := by
  cases st with
  | skip n => exact (List.map_drop g ds n).symm
  | limit n => exact (List.map_take g ds n).symm
  | select ids =>
      show (ds.map g).filter _ = (ds.filter _).map g
      rw [List.filter_map]
      congr 1
      exact List.filter_congr (fun p _ => by
        show decide ((g p).id ∈ ids) = decide (p.id ∈ ids)
        rw [hid])

theorem applyStages_map (stages : List Stage) (ds : List Patch)
    (g : Patch → Patch) (hid : ∀ p, (g p).id = p.id) :
    applyStages stages (ds.map g) = (applyStages stages ds).map g := by
  induction stages generalizing ds with
  | nil => rfl
  | cons st rest ih =>
      show applyStages rest (applyStage st (ds.map g)) = _
      rw [applyStage_map st ds g hid]
      exact ih (applyStage st ds)

theorem baseEditPatch_id (edit : TagEdit) (fa : Option (List String))
    (p : Patch) : (baseEditPatch edit fa p).id = p.id := rfl

theorem project_ids_baseEditPatch (edit : TagEdit) (fa : Option (List String))
    (t : LabelType) (F : String) (p : Patch) :
    project_ids t (lookupField (baseEditPatch edit fa p).fields F) =
      project_ids t (lookupField p.fields F) := by
  show project_ids t (lookupField (p.fields.map _) F) = _
  rw [lookupField_map_keyfun p.fields F
    (fun f val => if fieldSelected fa f then editValueTags edit val else val)]
  cases lookupField p.fields F with
  | none => rfl
  | some vv =>
      rw [Option.map_some']
      by_cases hsel : fieldSelected fa F = true
      · rw [if_pos hsel]
        exact project_ids_editValueTags edit t vv
      · rw [if_neg hsel]

theorem viewFieldIds_baseEditTags (v : PatchesView) (edit : TagEdit)
    (fa : Option (List String)) (t : LabelType) (F : String) :
    viewFieldIds t F { v with patchesDataset := baseEditTags v edit fa } =
      viewFieldIds t F v := by
  show ((applyStages v.stages (baseEditTags v edit fa)).map _).flatten = _
  have hid : ∀ p, ((fun p => if p.id ∈ (viewPatches v).map (fun p => p.id)
      then baseEditPatch edit fa p else p) p).id = p.id := by
    intro p
    dsimp only
    split <;> rfl
  rw [show baseEditTags v edit fa = v.patchesDataset.map (fun p =>
      if p.id ∈ (viewPatches v).map (fun p => p.id) then baseEditPatch edit fa p
      else p) from rfl,
    applyStages_map v.stages v.patchesDataset _ hid, List.map_map]
  show (List.map _ (viewPatches v)).flatten = (List.map _ (viewPatches v)).flatten
  congr 1
  apply List.map_congr_left
  intro p hp
  show project_ids t (lookupField (if p.id ∈ _ then baseEditPatch edit fa p
    else p).fields F) = project_ids t (lookupField p.fields F)
  split
  · exact project_ids_baseEditPatch edit fa t F p
  · rfl

theorem filter_id_editValueTagsIf (edit : TagEdit) (ids : List String)
    (vv : FieldValue) (lid : String) (hlid : lid ∉ ids) :
    (valueLabels (editValueTagsIf edit ids vv)).filter
        (fun l => decide (l.id = lid)) =
      (valueLabels vv).filter (fun l => decide (l.id = lid)) := by
  cases vv with
  | scalarVal l =>
      show List.filter _ [if l.id ∈ ids then applyEditLabel edit l else l] =
        List.filter _ [l]
      by_cases hl : l.id = lid
      · have heq : (if l.id ∈ ids then applyEditLabel edit l else l) = l := by
          rw [if_neg (by rw [hl]; exact hlid)]
        rw [heq]
      · rw [List.filter_cons, List.filter_cons]
        rw [editIf_id]
        simp [hl]
  | listVal ls =>
      show List.filter _ (ls.map _) = _
      rw [List.filter_map]
      rw [List.filter_congr (fun l _ => by
        show decide ((if l.id ∈ ids then applyEditLabel edit l else l).id = lid)
          = decide (l.id = lid)
        rw [editIf_id])]
      apply map_id_of_mem
      intro l hl
      have hmem := List.mem_filter.mp hl
      have hid : l.id = lid := by simpa using hmem.2
      show (if l.id ∈ ids then applyEditLabel edit l else l) = l
      rw [if_neg (by rw [hid]; exact hlid)]

theorem findLabels_sourceEditField (edit : TagEdit) (g : String)
    (ids : List String) (ref : SourceRef) (F : String) (lid : String)
    (hcond : g ≠ F ∨ lid ∉ ids) :
    findLabels (sourceEditField edit g ids ref).root F lid =
      findLabels ref.root F lid := by
  show ((ref.root.map _).map _).flatten = _
  rw [List.map_map]
  show (List.map _ ref.root).flatten = (List.map _ ref.root).flatten
  congr 1
  apply List.map_congr_left
  intro s hs
  show (optValueLabels (lookupField (if s.id ∈ _ then
      sourceEditSample edit g ids s else s).fields F)).filter _ =
    (optValueLabels (lookupField s.fields F)).filter _
  split
  · show (optValueLabels (lookupField (s.fields.map _) F)).filter _ = _
    rw [lookupField_map_keyfun s.fields F
      (fun f val => if f = g then editValueTagsIf edit ids val else val)]
    cases lookupField s.fields F with
    | none => rfl
    | some vv =>
        rw [Option.map_some']
        by_cases hFg : F = g
        · rw [if_pos hFg]
          rcases hcond with hcond | hcond
          · exact absurd hFg.symm hcond
          · exact filter_id_editValueTagsIf edit ids vv lid hcond
        · rw [if_neg hFg]
  · rfl

theorem sync_source_tag_fields_find (edit : TagEdit) (fields : List String)
    (v : PatchesView) (ops : List SyncOp) (src : SourceRef)
    (h : sync_source_tag_fields edit v fields = some (ops, src))
    (F : String) (t : LabelType) (ht : lookupType v.schema F = some t)
    (lid : String) (hlid : lid ∉ viewFieldIds t F v) :
    findLabels src.root F lid = findLabels v.source.root F lid := by
  induction fields generalizing v ops src with
  | nil =>
      rw [sync_source_tag_fields] at h
      simp only [Option.some.injEq, Prod.mk.injEq] at h
      rw [← h.2]
  | cons g rest ih =>
      rw [sync_source_tag_fields] at h
      cases htg : lookupType v.schema g with
      | none => rw [htg] at h; exact absurd h (by simp)
      | some tg =>
          rw [htg] at h
          simp only at h
          cases h2 : sync_source_tag_fields edit
              { v with
                source := sourceEditField edit g (viewFieldIds tg g v) v.source }
              rest with
          | none => rw [h2] at h; exact absurd h (by simp)
          | some pr =>
              obtain ⟨ops2, src2⟩ := pr
              rw [h2] at h
              simp only [Option.some.injEq, Prod.mk.injEq] at h
              obtain ⟨hops, hsrc⟩ := h
              subst hsrc
              have hstep : findLabels (sourceEditField edit g
                  (viewFieldIds tg g v) v.source).root F lid =
                  findLabels v.source.root F lid := by
                apply findLabels_sourceEditField
                by_cases hgF : g = F
                · subst hgF
                  have h3 : (some tg : Option LabelType) = some t :=
                    htg.symm.trans ht
                  injection h3 with h4
                  subst h4
                  exact Or.inr hlid
                · exact Or.inl hgF
              have hrec := ih
                { v with
                  source := sourceEditField edit g (viewFieldIds tg g v) v.source }
                ops2 src2 h2 ht hlid
              exact hrec.trans hstep

theorem sync_source_tag_fields_mem (edit : TagEdit) (fields : List String)
    (v : PatchesView) (ops : List SyncOp) (src : SourceRef)
    (h : sync_source_tag_fields edit v fields = some (ops, src))
    (F : String) (t : LabelType) (ht : lookupType v.schema F = some t)
    (hF : F ∈ fields) :
    SyncOp.sourceEditTags edit F (viewFieldIds t F v) ∈ ops := by
  induction fields generalizing v ops src with
  | nil => exact absurd hF (by simp)
  | cons g rest ih =>
      rw [sync_source_tag_fields] at h
      cases htg : lookupType v.schema g with
      | none => rw [htg] at h; exact absurd h (by simp)
      | some tg =>
          rw [htg] at h
          simp only at h
          cases h2 : sync_source_tag_fields edit
              { v with
                source := sourceEditField edit g (viewFieldIds tg g v) v.source }
              rest with
          | none => rw [h2] at h; exact absurd h (by simp)
          | some pr =>
              obtain ⟨ops2, src2⟩ := pr
              rw [h2] at h
              simp only [Option.some.injEq, Prod.mk.injEq] at h
              obtain ⟨hops, hsrc⟩ := h
              subst hops
              rcases List.mem_cons.mp hF with hF | hF
              · subst hF
                have h3 : (some tg : Option LabelType) = some t :=
                  htg.symm.trans ht
                injection h3 with h4
                subst h4
                exact List.mem_cons_self _ _
              · refine List.mem_cons_of_mem _ (ih
                  { v with
                    source := sourceEditField edit g (viewFieldIds tg g v) v.source }
                  ops2 src2 h2 ht hF)

/-- Claim C7: tag edits through the patch view propagate to the source
restricted to the view's current subset — for every tracked field the sync
collects the unwound label ids of the field over the current (possibly
filtered) view, issues exactly the source-side edit selecting those label
ids in that field, and source labels of the field whose ids are not in the
current subset keep their tags unchanged. -/
theorem claim_C7_tag_scope (v : PatchesView) (edit : TagEdit)
    (arg : FieldsArg) (ops : List SyncOp) (v' : PatchesView) (F : String)
    (t : LabelType) (ht : lookupType v.schema F = some t)
    (h : edit_label_tags v edit arg = some (ops, v')) :
    (F ∈ resolveFields v.labelFields (normalizeArg arg) →
      SyncOp.sourceEditTags edit F (viewFieldIds t F v) ∈ ops) ∧
    (∀ lid, lid ∉ viewFieldIds t F v →
      findLabels v'.source.root F lid = findLabels v.source.root F lid) := by
  rw [edit_label_tags] at h
  simp only at h
  cases h0 : sync_source_tag_fields edit
      { v with patchesDataset := baseEditTags v edit (normalizeArg arg) }
      (resolveFields v.labelFields (normalizeArg arg)) with
  | none => rw [h0] at h; exact absurd h (by simp)
  | some pr =>
      obtain ⟨ops0, src0⟩ := pr
      rw [h0] at h
      simp only [Option.some.injEq, Prod.mk.injEq] at h
      obtain ⟨hops, hv'⟩ := h
      subst hops
      constructor
      · intro hF
        have hmem := sync_source_tag_fields_mem edit
          (resolveFields v.labelFields (normalizeArg arg))
          { v with patchesDataset := baseEditTags v edit (normalizeArg arg) }
          ops0 src0 h0 F t ht hF
        rw [viewFieldIds_baseEditTags v edit (normalizeArg arg) t F] at hmem
        exact List.mem_cons_of_mem _ hmem
      · intro lid hlid
        rw [← hv']
        refine sync_source_tag_fields_find edit
          (resolveFields v.labelFields (normalizeArg arg))
          { v with patchesDataset := baseEditTags v edit (normalizeArg arg) }
          ops0 src0 h0 F t ht lid ?_
        rw [viewFieldIds_baseEditTags v edit (normalizeArg arg) t F]
        exact hlid

theorem claim_C7_witness :
    SyncOp.sourceEditTags exEdit "gt" (viewFieldIds LabelType.list "gt" exView)
      ∈ exOpsTag :=
  (claim_C7_tag_scope exView exEdit FieldsArg.all exOpsTag exViewTag "gt"
    LabelType.list (by decide) (by decide)).1 (by decide)

theorem sync_source_sample_field_shape (v : PatchesView) (p : Patch)
    (field : String) (op : SyncOp) (src' : SourceRef)
    (h : sync_source_sample_field v p field = some (op, src')) :
    ∃ t d, lookupType v.schema field = some t ∧
      patchFieldDoc t (lookupField p.fields field) = some d ∧
      (op, src') = sampleSyncResult v p field d := by
  cases ht : lookupType v.schema field with
  | none => rw [sync_source_sample_field, ht] at h; exact absurd h (by simp)
  | some t =>
      rw [sync_source_sample_field, ht] at h
      simp only at h
      cases hd : patchFieldDoc t (lookupField p.fields field) with
      | none => rw [hd] at h; exact absurd h (by simp)
      | some d =>
          rw [hd] at h
          simp only [Option.some.injEq] at h
          exact ⟨t, d, rfl, hd, h.symm⟩

theorem set_labels_preserve_ne (G F : String) (hne : F ≠ G)
    (sids : List String) (docs : List SyncDoc) (ds : List SrcSample) :
    ∀ s' ∈ set_labels_by_id G sids docs ds, ∃ s ∈ ds, s'.id = s.id ∧
      lookupField s'.fields F = lookupField s.fields F := by
  intro s' hs'
  unfold set_labels_by_id at hs'
  rw [List.mem_map] at hs'
  obtain ⟨s, hs, heq⟩ := hs'
  subst heq
  exact ⟨s, hs, setLabelsSample_id _ _ _,
    lookupField_setLabelsSample_ne _ _ _ _ hne⟩

theorem sync_sample_fields_preserve (p : Patch) (fields : List String)
    (v : PatchesView) (ops : List SyncOp) (src : SourceRef) (F : String)
    (h : sync_source_sample_fields v p fields = some (ops, src))
    (hF : F ∉ fields) :
    ops.filter (opIsSetLabels F) = [] ∧
    src.selected = v.source.selected ∧
    (∀ s' ∈ src.root, ∃ s ∈ v.source.root, s'.id = s.id ∧
      lookupField s'.fields F = lookupField s.fields F) := by
  induction fields generalizing v ops src with
  | nil =>
      rw [sync_source_sample_fields] at h
      simp only [Option.some.injEq, Prod.mk.injEq] at h
      obtain ⟨hops, hsrc⟩ := h
      subst hops; subst hsrc
      exact ⟨rfl, rfl, fun s' hs' => ⟨s', hs', rfl, rfl⟩⟩
  | cons g rest ih =>
      simp only [List.mem_cons, not_or] at hF
      rw [sync_source_sample_fields] at h
      cases h1 : sync_source_sample_field v p g with
      | none => rw [h1] at h; exact absurd h (by simp)
      | some pr =>
          obtain ⟨op1, src1⟩ := pr
          rw [h1] at h
          simp only at h
          cases h2 : sync_source_sample_fields { v with source := src1 } p
              rest with
          | none => rw [h2] at h; exact absurd h (by simp)
          | some pr2 =>
              obtain ⟨ops2, src2⟩ := pr2
              rw [h2] at h
              simp only [Option.some.injEq, Prod.mk.injEq] at h
              obtain ⟨hops, hsrc⟩ := h
              subst hops; subst hsrc
              obtain ⟨t1, d1, ht1, hd1, hres⟩ :=
                sync_source_sample_field_shape v p g op1 src1 h1
              simp only [sampleSyncResult, Prod.mk.injEq] at hres
              obtain ⟨hop1, hsrc1⟩ := hres
              obtain ⟨hf2, hsel2, hst2⟩ := ih _ _ _ h2 hF.2
              refine ⟨?_, ?_, ?_⟩
              · rw [List.filter_cons, hop1]
                have : opIsSetLabels F (SyncOp.setLabels g [p.sample_id] [d1])
                    = false := by
                  simp [opIsSetLabels]
                  exact fun hc => hF.1 hc.symm
                simp only [this]
                exact hf2
              · rw [hsel2, hsrc1]
              · intro s' hs'
                obtain ⟨s1, hs1, hid1, hlk1⟩ := hst2 s' hs'
                rw [hsrc1] at hs1
                have hs1' : s1 ∈ set_labels_by_id g [p.sample_id] [d1]
                    v.source.root := hs1
                obtain ⟨s0, hs0, hid0, hlk0⟩ := set_labels_preserve_ne g F
                  (fun hc => hF.1 hc) [p.sample_id] [d1] v.source.root s1 hs1'
                exact ⟨s0, hs0, hid1.trans hid0, hlk1.trans hlk0⟩

theorem set_labels_single_char (F : String) (sid : String) (d : SyncDoc)
    (ds : List SrcSample) :
    ∀ s' ∈ set_labels_by_id F [sid] [d] ds, ∃ s ∈ ds, s'.id = s.id ∧
      lookupField s'.fields F =
        (if s.id = sid then
          (lookupField s.fields F).map (fun vv => applySetDoc vv d)
        else lookupField s.fields F) := by
  intro s' hs'
  unfold set_labels_by_id at hs'
  rw [List.mem_map] at hs'
  obtain ⟨s, hs, heq⟩ := hs'
  subst heq
  refine ⟨s, hs, setLabelsSample_id _ _ _, ?_⟩
  rw [lookupField_setLabelsSample_self]
  by_cases hid : s.id = sid
  · rw [if_pos hid]
    have hdocs : docsFor (List.zip [sid] [d]) s.id = [d] := by
      show docsFor [(sid, d)] s.id = [d]
      rw [docsFor_cons, if_pos hid.symm]
      rfl
    rw [hdocs]
    cases lookupField s.fields F <;> rfl
  · rw [if_neg hid]
    have hdocs : docsFor (List.zip [sid] [d]) s.id = [] := by
      show docsFor [(sid, d)] s.id = []
      rw [docsFor_cons, if_neg (fun hc => hid hc.symm)]
      rfl
    rw [hdocs]
    exact Option.map_id'

theorem sync_sample_fields_main (p : Patch) (fields : List String)
    (v : PatchesView) (ops : List SyncOp) (src : SourceRef) (F : String)
    (t : LabelType) (d : SyncDoc)
    (h : sync_source_sample_fields v p fields = some (ops, src))
    (hnd : fields.Nodup) (hF : F ∈ fields)
    (ht : lookupType v.schema F = some t)
    (hd : patchFieldDoc t (lookupField p.fields F) = some d) :
    ops.filter (opIsSetLabels F) = [SyncOp.setLabels F [p.sample_id] [d]] ∧
    src.selected = v.source.selected ∧
    (∀ s' ∈ src.root, ∃ s ∈ v.source.root, s'.id = s.id ∧
      lookupField s'.fields F =
        (if s.id = p.sample_id then
          (lookupField s.fields F).map (fun vv => applySetDoc vv d)
        else lookupField s.fields F)) := by
  induction fields generalizing v ops src with
  | nil => exact absurd hF (by simp)
  | cons g rest ih =>
      rw [List.nodup_cons] at hnd
      rw [sync_source_sample_fields] at h
      cases h1 : sync_source_sample_field v p g with
      | none => rw [h1] at h; exact absurd h (by simp)
      | some pr =>
          obtain ⟨op1, src1⟩ := pr
          rw [h1] at h
          simp only at h
          cases h2 : sync_source_sample_fields { v with source := src1 } p
              rest with
          | none => rw [h2] at h; exact absurd h (by simp)
          | some pr2 =>
              obtain ⟨ops2, src2⟩ := pr2
              rw [h2] at h
              simp only [Option.some.injEq, Prod.mk.injEq] at h
              obtain ⟨hops, hsrc⟩ := h
              subst hops; subst hsrc
              obtain ⟨t1, d1, ht1, hd1, hres⟩ :=
                sync_source_sample_field_shape v p g op1 src1 h1
              simp only [sampleSyncResult, Prod.mk.injEq] at hres
              obtain ⟨hop1, hsrc1⟩ := hres
              rcases List.mem_cons.mp hF with hgF | hFrest
              · -- g is the tracked field F itself; rest does not mention F
                subst hgF
                have ht' : (some t1 : Option LabelType) = some t :=
                  ht1.symm.trans ht
                injection ht' with ht''
                subst ht''
                have hd' : (some d1 : Option SyncDoc) = some d :=
                  hd1.symm.trans hd
                injection hd' with hd''
                subst hd''
                obtain ⟨hf2, hsel2, hst2⟩ :=
                  sync_sample_fields_preserve p rest _ _ _ F h2 hnd.1
                refine ⟨?_, ?_, ?_⟩
                · rw [hop1]
                  simp [List.filter_cons, opIsSetLabels, hf2]
                · rw [hsel2, hsrc1]
                · intro s' hs'
                  obtain ⟨s1, hs1, hid1, hlk1⟩ := hst2 s' hs'
                  rw [hsrc1] at hs1
                  obtain ⟨s0, hs0, hid0, hlk0⟩ :=
                    set_labels_single_char F p.sample_id d1 v.source.root
                      s1 hs1
                  exact ⟨s0, hs0, hid1.trans hid0, hlk1.trans hlk0⟩
              · -- g is a different tracked field; its write leaves F alone
                have hgne : g ≠ F := fun hc => hnd.1 (hc ▸ hFrest)
                obtain ⟨hf2, hsel2, hst2⟩ :=
                  ih { v with source := src1 } ops2 src2 h2 hnd.2 hFrest ht
                refine ⟨?_, ?_, ?_⟩
                · rw [hop1]
                  simp only [List.filter_cons, opIsSetLabels,
                    decide_eq_true_eq]
                  rw [if_neg hgne]
                  exact hf2
                · rw [hsel2, hsrc1]
                · intro s' hs'
                  obtain ⟨s1, hs1, hid1, hlk1⟩ := hst2 s' hs'
                  rw [hsrc1] at hs1
                  obtain ⟨s0, hs0, hid0, hlk0⟩ := set_labels_preserve_ne g F
                    (fun hc => hgne hc.symm) [p.sample_id] [d1] v.source.root
                    s1 hs1
                  refine ⟨s0, hs0, hid1.trans hid0, ?_⟩
                  rw [hlk1, hid0, hlk0]

theorem patchFieldDoc_labels (t : LabelType) (fv : Option FieldValue)
    (d : SyncDoc) (hd : patchFieldDoc t fv = some d)
    (hwf : optValueWF t fv = true) : d.labels = optValueLabels fv := by
  cases fv with
  | none =>
      cases t with
      | scalar =>
          simp only [patchFieldDoc, field_to_mongo] at hd
          rw [if_neg (by simp)] at hd
          simp only [Option.some.injEq] at hd
          rw [← hd]
          rfl
      | list =>
          simp only [patchFieldDoc, field_to_mongo] at hd
          simp only [if_true] at hd
          exact absurd hd (by simp [unwrapListDoc])
  | some vv =>
      cases vv with
      | scalarVal l =>
          cases t with
          | scalar =>
              simp only [patchFieldDoc, field_to_mongo] at hd
              rw [if_neg (by simp)] at hd
              simp only [Option.some.injEq] at hd
              rw [← hd]
              rfl
          | list => exact absurd hwf (by simp [optValueWF, valueWF])
      | listVal ls =>
          cases t with
          | scalar => exact absurd hwf (by simp [optValueWF, valueWF])
          | list =>
              simp only [patchFieldDoc, field_to_mongo] at hd
              simp only [if_true] at hd
              simp only [unwrapListDoc, Option.some.injEq] at hd
              rw [← hd]
              rfl

theorem applySetDoc_roundtrip_mem (t : LabelType) (fv : Option FieldValue)
    (d : SyncDoc) (vv : FieldValue)
    (hd : patchFieldDoc t fv = some d) (hwf : optValueWF t fv = true)
    (hwfv : valueWF t vv = true)
    (hids : ((optValueLabels fv).map (fun l => l.id)).Nodup) :
    ∀ n ∈ optValueLabels fv, n ∈ valueLabels (applySetDoc vv d) := by
  have hlab := patchFieldDoc_labels t fv d hd hwf
  cases t with
  | scalar =>
      cases vv with
      | listVal cur => exact absurd hwfv (by simp [valueWF])
      | scalarVal l0 =>
          cases fv with
          | none => intro n hn; exact absurd hn (by simp [optValueLabels])
          | some w =>
              cases w with
              | listVal ls => exact absurd hwf (by simp [optValueWF, valueWF])
              | scalarVal l =>
                  have hdv : d = SyncDoc.one l := by
                    simp only [patchFieldDoc, field_to_mongo] at hd
                    rw [if_neg (by simp)] at hd
                    simp only [Option.some.injEq] at hd
                    exact hd.symm
                  subst hdv
                  intro n hn
                  simp only [optValueLabels, valueLabels,
                    List.mem_singleton] at hn
                  subst hn
                  show n ∈ valueLabels (FieldValue.scalarVal n)
                  simp [valueLabels]
  | list =>
      cases vv with
      | scalarVal l0 => exact absurd hwfv (by simp [valueWF])
      | listVal cur =>
          cases fv with
          | none =>
              simp only [patchFieldDoc, field_to_mongo] at hd
              simp only [if_true] at hd
              exact absurd hd (by simp [unwrapListDoc])
          | some w =>
              cases w with
              | scalarVal l => exact absurd hwf (by simp [optValueWF, valueWF])
              | listVal ls =>
                  have hdv : d = SyncDoc.many ls := by
                    simp only [patchFieldDoc, field_to_mongo] at hd
                    simp only [if_true] at hd
                    simp only [unwrapListDoc, Option.some.injEq] at hd
                    exact hd.symm
                  subst hdv
                  intro n hn
                  simp only [optValueLabels, valueLabels] at hn
                  have hnd : (ls.map (fun l => l.id)).Nodup := by
                    simpa [optValueLabels, valueLabels] using hids
                  have := upsert_containsUniq_of_mem cur ls n hnd hn
                  exact this.1

/-- Claim C1: saving a patch record first performs the base write-back into
the backing patches dataset and then, for every tracked label field, issues
exactly one set-labels-by-id call against the source collection whose
sample-id list is the singleton [patch.sample_id] and whose document is the
patch's current Mongo-serialized value of the field, so that reading the
source sample's field afterwards yields the same label content (by id) as
was written to the patch. -/
theorem claim_C1_patch_save_roundtrip (v : PatchesView) (p : Patch)
    (F : String) (t : LabelType) (d : SyncDoc) (ops : List SyncOp)
    (v' : PatchesView)
    (h : patch_save v p = some (ops, v'))
    (hnd : v.labelFields.Nodup) (hF : F ∈ v.labelFields)
    (ht : lookupType v.schema F = some t)
    (hd : patchFieldDoc t (lookupField p.fields F) = some d)
    (hwf : optValueWF t (lookupField p.fields F) = true)
    (hids : ((optValueLabels (lookupField p.fields F)).map
      (fun l => l.id)).Nodup) :
    ops.head? = some (SyncOp.basePatchSave p.id) ∧
    v'.patchesDataset =
      v.patchesDataset.map (fun q => if q.id = p.id then p else q) ∧
    ops.filter (opIsSetLabels F) = [SyncOp.setLabels F [p.sample_id] [d]] ∧
    d.labels = optValueLabels (lookupField p.fields F) ∧
    (∀ s' ∈ v'.source.root, ∃ s ∈ v.source.root, s'.id = s.id ∧
      (s.id = p.sample_id → ∀ vv, lookupField s.fields F = some vv →
        valueWF t vv = true →
        ∀ n ∈ optValueLabels (lookupField p.fields F),
          ∃ vv', lookupField s'.fields F = some vv' ∧ n ∈ valueLabels vv')) := by
  rw [patch_save] at h
  simp only at h
  cases h0 : sync_source_sample_fields
      { v with patchesDataset :=
          v.patchesDataset.map (fun q => if q.id = p.id then p else q) }
      p v.labelFields with
  | none => rw [h0] at h; exact absurd h (by simp)
  | some pr =>
      obtain ⟨ops0, src0⟩ := pr
      rw [h0] at h
      simp only [Option.some.injEq, Prod.mk.injEq] at h
      obtain ⟨hops, hv'⟩ := h
      subst hops
      obtain ⟨hfil, hsel, hchar⟩ := sync_sample_fields_main p v.labelFields
        { v with patchesDataset :=
            v.patchesDataset.map (fun q => if q.id = p.id then p else q) }
        ops0 src0 F t d h0 hnd hF ht hd
      refine ⟨rfl, ?_, ?_, patchFieldDoc_labels t _ d hd hwf, ?_⟩
      · rw [← hv']
      · rw [List.filter_cons]
        rw [if_neg (by simp [opIsSetLabels])]
        exact hfil
      · intro s' hs'
        rw [← hv'] at hs'
        obtain ⟨s, hs, hid, hlk⟩ := hchar s' hs'
        refine ⟨s, hs, hid, ?_⟩
        intro hsid vv hvv hwfv n hn
        rw [if_pos hsid, hvv, Option.map_some'] at hlk
        refine ⟨applySetDoc vv d, hlk, ?_⟩
        exact applySetDoc_roundtrip_mem t _ d vv hd hwf hwfv hids n hn

theorem claim_C1_witness :
    exOpsC1.filter (opIsSetLabels "gt") =
      [SyncOp.setLabels "gt" ["s1"] [SyncDoc.many [exLabelA]]] :=
  (claim_C1_patch_save_roundtrip exView exPatchA "gt" LabelType.list
    (SyncDoc.many [exLabelA]) exOpsC1 exView (by decide) (by decide)
    (by decide) (by decide) (by decide) (by decide) (by decide)).2.2.1

theorem keys_setFieldValue (fs : List (String × FieldValue)) (f : String)
    (g : FieldValue → FieldValue) :
    (setFieldValue fs f g).map (fun e => e.1) = fs.map (fun e => e.1) := by
  unfold setFieldValue
  rw [List.map_map]
  apply List.map_congr_left
  intro e _
  show (if e.1 = f then (e.1, g e.2) else e).1 = e.1
  split <;> rfl

theorem keys_setLabelsStep (field : String) (s : SrcSample)
    (pr : String × SyncDoc) :
    (setLabelsStep field s pr).fields.map (fun e => e.1) =
      s.fields.map (fun e => e.1) := by
  unfold setLabelsStep
  split
  · dsimp only
    exact keys_setFieldValue _ _ _
  · rfl

theorem keys_setLabelsSample (field : String)
    (pairs : List (String × SyncDoc)) (s : SrcSample) :
    (setLabelsSample field pairs s).fields.map (fun e => e.1) =
      s.fields.map (fun e => e.1) := by
  induction pairs generalizing s with
  | nil => rfl
  | cons pr rest ih =>
      rw [setLabelsSample_cons, ih, keys_setLabelsStep]

theorem keys_deleteLabelsSample_sublist (ids : List String) (field : String)
    (s : SrcSample) :
    ((deleteLabelsSample ids field s).fields.map (fun e => e.1)).Sublist
      (s.fields.map (fun e => e.1)) := by
  show ((s.fields.filterMap (fun e =>
      if e.1 = field then (deleteFromValue ids e.2).map (fun v => (e.1, v))
      else some e)).map (fun e => e.1)).Sublist (s.fields.map (fun e => e.1))
  induction s.fields with
  | nil => exact List.Sublist.refl _
  | cons e rest ih =>
      by_cases he : e.1 = field
      · cases hd : deleteFromValue ids e.2 with
        | none =>
            rw [List.filterMap_cons_none (by rw [if_pos he, hd]; rfl)]
            exact List.sublist_cons_of_sublist _ ih
        | some v =>
            rw [List.filterMap_cons_some (by rw [if_pos he, hd]; rfl)]
            rw [List.map_cons, List.map_cons]
            exact List.cons_sublist_cons.mpr ih
      · rw [List.filterMap_cons_some (by rw [if_neg he])]
        rw [List.map_cons, List.map_cons]
        exact List.cons_sublist_cons.mpr ih

theorem mem_srcFieldIds (y : String) (t : LabelType) (F : String)
    (ds : List SrcSample) :
    y ∈ srcFieldIds t F ds ↔
      ∃ s ∈ ds, y ∈ project_ids t (lookupField s.fields F) := by
  simp [srcFieldIds, List.mem_flatten]

theorem mem_of_mem_srcVisible (ref : SourceRef) (s : SrcSample)
    (h : s ∈ srcVisible ref) : s ∈ ref.root := by
  unfold srcVisible at h
  cases hs : ref.selected with
  | none => rw [hs] at h; exact h
  | some ids =>
      rw [hs] at h
      exact (List.mem_filter.mp h).1

theorem upsert_ids_superset (cur new : List Label) (l : Label)
    (hl : l ∈ cur) :
    ∃ l', l' ∈ upsertLabels cur new ∧ l'.id = l.id := by
  refine ⟨replaceIn new l, List.mem_append_left _ (List.mem_map_of_mem _ hl), ?_⟩
  unfold replaceIn
  cases hf : new.find? (fun n => decide (n.id = l.id)) with
  | none => rfl
  | some m =>
      have hm := List.find?_some hf
      simp only [decide_eq_true_eq] at hm
      exact hm

theorem labelsFold_ids_superset (ds : List SyncDoc) (cur : List Label)
    (X : String) (hX : X ∈ cur.map (fun l => l.id)) :
    X ∈ (labelsFold ds cur).map (fun l => l.id) := by
  induction ds generalizing cur with
  | nil => exact hX
  | cons d rest ih =>
      rw [labelsFold_cons]
      apply ih
      rw [List.mem_map] at hX
      obtain ⟨l, hl, hid⟩ := hX
      obtain ⟨l', hl', hid'⟩ := upsert_ids_superset cur d.labels l hl
      rw [List.mem_map]
      exact ⟨l', hl', hid'.trans hid⟩

theorem setLabelsSample_project_mem (F : String)
    (pairs : List (String × SyncDoc)) (s : SrcSample) (t : LabelType)
    (X : String) (hX : X ∈ project_ids t (lookupField s.fields F))
    (hscalar : t = LabelType.scalar → docsFor pairs s.id = []) :
    X ∈ project_ids t (lookupField (setLabelsSample F pairs s).fields F) := by
  rw [lookupField_setLabelsSample_self]
  cases hv : lookupField s.fields F with
  | none => rw [hv] at hX; exact absurd hX (by simp [project_ids])
  | some vv =>
      rw [hv] at hX
      rw [Option.map_some']
      cases vv with
      | scalarVal l =>
          cases t with
          | scalar =>
              rw [hscalar rfl]
              exact hX
          | list => exact absurd hX (by simp [project_ids])
      | listVal cur =>
          cases t with
          | scalar => exact absurd hX (by simp [project_ids])
          | list =>
              rw [foldl_applySetDoc_listVal]
              simp only [project_ids] at hX ⊢
              exact labelsFold_ids_superset _ cur X hX

theorem aggPairs_eq (t : LabelType) (F : String) (ds : List Patch) :
    (aggSampleIds ds).zip (aggDocs t F ds) =
      ds.map (fun q => (q.sample_id, project_raw t (lookupField q.fields F))) := by
  unfold aggSampleIds aggDocs
  exact List.zip_map' _ _ ds

theorem rootUpdate_survives (v : PatchesView) (t : LabelType) (F : String)
    (X : String)
    (hX : X ∈ srcFieldIds t F (srcVisible v.source))
    (hsurv : t = LabelType.scalar → ∀ q ∈ v.patchesDataset,
      ∀ s ∈ v.source.root, s.id = q.sample_id →
      X ∉ project_ids t (lookupField s.fields F)) :
    X ∈ srcFieldIds t F (srcVisible (rootUpdateRef v t F)) := by
  rw [mem_srcFieldIds] at hX
  obtain ⟨s, hs, hXs⟩ := hX
  have hcomm : srcVisible (rootUpdateRef v t F) =
      (srcVisible v.source).map (setLabelsSample F
        ((aggSampleIds v.patchesDataset).zip
          (aggDocs t F v.patchesDataset))) :=
    srcVisible_map_of_id v.source _ (fun s => setLabelsSample_id _ _ _)
  rw [mem_srcFieldIds, hcomm]
  refine ⟨setLabelsSample F ((aggSampleIds v.patchesDataset).zip
    (aggDocs t F v.patchesDataset)) s, List.mem_map_of_mem _ hs, ?_⟩
  apply setLabelsSample_project_mem F _ s t X hXs
  intro hts
  unfold docsFor
  rw [aggPairs_eq t F v.patchesDataset]
  have hfil : (v.patchesDataset.map (fun q =>
      (q.sample_id, project_raw t (lookupField q.fields F)))).filter
      (fun pr => decide (pr.1 = s.id)) = [] := by
    rw [List.filter_eq_nil_iff]
    intro pr hpr
    rw [List.mem_map] at hpr
    obtain ⟨q, hq, heq⟩ := hpr
    subst heq
    simp only [decide_eq_true_eq]
    intro hc
    exact hsurv hts q hq s (mem_of_mem_srcVisible _ _ hs) hc.symm hXs
  rw [hfil]
  rfl

theorem sync_root_field_fn (v : PatchesView) (G : String) (ops1 : List SyncOp)
    (src1 : SourceRef) (h : sync_source_root_field v G = some (ops1, src1)) :
    src1.selected = v.source.selected ∧
    ∃ fn : SrcSample → SrcSample, src1.root = v.source.root.map fn ∧
      (∀ s, (fn s).id = s.id) ∧
      (∀ F, F ≠ G → ∀ s, lookupField (fn s).fields F = lookupField s.fields F) ∧
      (∀ s, (((fn s).fields.map (fun e => e.1)).Sublist
        (s.fields.map (fun e => e.1)))) ∧
      (∀ op ∈ ops1, ∀ F, opIsDeleteLabels F op = true → G = F) := by
  obtain ⟨t, ht, hc⟩ := sync_source_root_field_shape v G ops1 src1 h
  rcases hc with ⟨_, hops, hsrc⟩ | ⟨_, hops, hsrc⟩
  · subst hsrc
    refine ⟨rfl, setLabelsSample G ((aggSampleIds v.patchesDataset).zip
      (aggDocs t G v.patchesDataset)), rfl, ?_, ?_, ?_, ?_⟩
    · intro s
      exact setLabelsSample_id _ _ _
    · intro F hne s
      exact lookupField_setLabelsSample_ne _ _ _ _ hne
    · intro s
      rw [keys_setLabelsSample]
    · subst hops
      intro op hop F hF
      simp only [List.mem_singleton] at hop
      subst hop
      exact absurd hF (by simp [opIsDeleteLabels, rootUpdateOp])
  · subst hsrc
    refine ⟨rfl, fun s => deleteLabelsSample (rootDeleteIds v t G) G
      (setLabelsSample G ((aggSampleIds v.patchesDataset).zip
        (aggDocs t G v.patchesDataset)) s), ?_, ?_, ?_, ?_, ?_⟩
    · show delete_labels _ _ (set_labels_by_id G _ _ v.source.root) = _
      unfold delete_labels set_labels_by_id
      rw [List.map_map]
      rfl
    · intro s
      rw [deleteLabelsSample_id, setLabelsSample_id]
    · intro F hne s
      rw [lookupField_deleteLabelsSample_ne _ _ _ _ hne,
        lookupField_setLabelsSample_ne _ _ _ _ hne]
    · intro s
      have h1 := keys_deleteLabelsSample_sublist (rootDeleteIds v t G) G
        (setLabelsSample G ((aggSampleIds v.patchesDataset).zip
          (aggDocs t G v.patchesDataset)) s)
      rw [keys_setLabelsSample] at h1
      exact h1
    · subst hops
      intro op hop F hF
      rcases List.mem_cons.mp hop with hop | hop
      · subst hop
        exact absurd hF (by simp [opIsDeleteLabels, rootUpdateOp])
      · simp only [List.mem_singleton] at hop
        subst hop
        simp only [opIsDeleteLabels, decide_eq_true_eq] at hF
        exact hF

theorem sync_root_field_key (v : PatchesView) (F : String) (t : LabelType)
    (ops1 : List SyncOp) (src1 : SourceRef)
    (ht : lookupType v.schema F = some t)
    (h : sync_source_root_field v F = some (ops1, src1))
    (hkeys : ∀ s ∈ v.source.root, ((s.fields.map (fun e => e.1)).Nodup)) :
    ∀ y ∈ srcFieldIds t F (srcVisible src1),
      y ∈ aggLabelIds t F v.patchesDataset := by
  obtain ⟨t', ht', hc⟩ := sync_source_root_field_shape v F ops1 src1 h
  have h3 : (some t' : Option LabelType) = some t := ht'.symm.trans ht
  injection h3 with h4
  subst h4
  rcases hc with ⟨hemp, _, hsrc⟩ | ⟨_, _, hsrc⟩
  · subst hsrc
    intro y hy
    have he : (rootDeleteIds v t' F).isEmpty = true := by
      rw [hemp]; rfl
    rw [rootDeleteIds] at he
    exact (setDiff_isEmpty_iff _ _).mp he y hy
  · subst hsrc
    intro y hy
    have hcomm : srcVisible { rootUpdateRef v t' F with
        root := delete_labels (rootDeleteIds v t' F) F
          (rootUpdateRef v t' F).root } =
        (srcVisible (rootUpdateRef v t' F)).map
          (deleteLabelsSample (rootDeleteIds v t' F) F) :=
      srcVisible_map_of_id (rootUpdateRef v t' F) _
        (fun s => deleteLabelsSample_id _ _ _)
    rw [hcomm, mem_srcFieldIds] at hy
    obtain ⟨s', hs', hys⟩ := hy
    rw [List.mem_map] at hs'
    obtain ⟨s, hs, heq⟩ := hs'
    subst heq
    have hknd : (s.fields.map (fun e => e.1)).Nodup := by
      have hsr : s ∈ (rootUpdateRef v t' F).root := mem_of_mem_srcVisible _ _ hs
      have : s ∈ v.source.root.map (setLabelsSample F
          ((aggSampleIds v.patchesDataset).zip
            (aggDocs t' F v.patchesDataset))) := hsr
      rw [List.mem_map] at this
      obtain ⟨s0, hs0, heq0⟩ := this
      subst heq0
      rw [keys_setLabelsSample]
      exact hkeys s0 hs0
    rw [lookupField_deleteLabelsSample_self _ _ _ hknd] at hys
    cases hv : lookupField s.fields F with
    | none => rw [hv] at hys; exact absurd hys (by simp [project_ids])
    | some vv =>
        rw [hv, Option.some_bind] at hys
        cases hd : deleteFromValue (rootDeleteIds v t' F) vv with
        | none => rw [hd] at hys; exact absurd hys (by simp [project_ids])
        | some vv' =>
            rw [hd] at hys
            obtain ⟨hnD, hmem⟩ :=
              project_ids_deleteFromValue _ t' vv vv' hd y hys
            have hyin : y ∈ srcFieldIds t' F
                (srcVisible (rootUpdateRef v t' F)) := by
              rw [mem_srcFieldIds]
              exact ⟨s, hs, by rw [hv]; exact hmem⟩
            by_contra hnl
            exact hnD ((mem_setDiff y _ _).mpr ⟨hyin, hnl⟩)

theorem srcFieldIds_eq_of_fn (t : LabelType) (F : String)
    (ref ref' : SourceRef) (fn : SrcSample → SrcSample)
    (hroot : ref'.root = ref.root.map fn) (hsel : ref'.selected = ref.selected)
    (hid : ∀ s, (fn s).id = s.id)
    (hlk : ∀ s, lookupField (fn s).fields F = lookupField s.fields F) :
    srcFieldIds t F (srcVisible ref') = srcFieldIds t F (srcVisible ref) := by
  obtain ⟨r', sel'⟩ := ref'
  simp only at hroot hsel
  subst hroot
  subst hsel
  rw [srcVisible_map_of_id ref fn hid]
  unfold srcFieldIds
  rw [List.map_map]
  congr 1
  apply List.map_congr_left
  intro s _
  show project_ids t (lookupField (fn s).fields F) = _
  rw [hlk]

theorem sync_root_fields_preserve (fields : List String) (v : PatchesView)
    (ops : List SyncOp) (src : SourceRef) (F : String)
    (h : sync_source_root_fields v fields = some (ops, src))
    (hF : F ∉ fields) :
    ops.filter (opIsDeleteLabels F) = [] ∧
    src.selected = v.source.selected ∧
    ∃ fn : SrcSample → SrcSample, src.root = v.source.root.map fn ∧
      (∀ s, (fn s).id = s.id) ∧
      (∀ s, lookupField (fn s).fields F = lookupField s.fields F) := by
  induction fields generalizing v ops src with
  | nil =>
      rw [sync_source_root_fields] at h
      simp only [Option.some.injEq, Prod.mk.injEq] at h
      obtain ⟨hops, hsrc⟩ := h
      subst hops; subst hsrc
      exact ⟨rfl, rfl, fun s => s,
        (map_id_of_mem _ _ (fun _ _ => rfl)).symm, fun _ => rfl, fun _ => rfl⟩
  | cons g rest ih =>
      simp only [List.mem_cons, not_or] at hF
      rw [sync_source_root_fields] at h
      cases h1 : sync_source_root_field v g with
      | none => rw [h1] at h; exact absurd h (by simp)
      | some pr =>
          obtain ⟨ops1, src1⟩ := pr
          rw [h1] at h
          simp only at h
          cases h2 : sync_source_root_fields { v with source := src1 } rest with
          | none => rw [h2] at h; exact absurd h (by simp)
          | some pr2 =>
              obtain ⟨ops2, src2⟩ := pr2
              rw [h2] at h
              simp only [Option.some.injEq, Prod.mk.injEq] at h
              obtain ⟨hops, hsrc⟩ := h
              subst hops; subst hsrc
              obtain ⟨hsel1, fn1, hroot1, hid1, hlk1, hkeys1, hdel1⟩ :=
                sync_root_field_fn v g ops1 src1 h1
              obtain ⟨hf2, hsel2, fn2, hroot2, hid2, hlk2⟩ := ih _ _ _ h2 hF.2
              refine ⟨?_, hsel2.trans hsel1, fun s => fn2 (fn1 s), ?_, ?_, ?_⟩
              · rw [List.filter_append, hf2, List.append_nil]
                rw [List.filter_eq_nil_iff]
                intro op hop hdec
                exact hF.1 ((hdel1 op hop F hdec) ▸ rfl)
              · rw [hroot2]
                show src1.root.map fn2 = _
                rw [hroot1, List.map_map]
                rfl
              · intro s
                rw [hid2, hid1]
              · intro s
                rw [hlk2 (fn1 s), hlk1 F (fun hc => hF.1 hc) s]

theorem sync_root_fields_delete_spec (fields : List String) (v : PatchesView)
    (ops : List SyncOp) (src : SourceRef) (F : String) (t : LabelType)
    (X : String)
    (h : sync_source_root_fields v fields = some (ops, src))
    (hnd : fields.Nodup) (hF : F ∈ fields)
    (ht : lookupType v.schema F = some t)
    (hkeys : ∀ s ∈ v.source.root, ((s.fields.map (fun e => e.1)).Nodup))
    (hX : X ∈ srcFieldIds t F (srcVisible v.source))
    (hnl : X ∉ aggLabelIds t F v.patchesDataset)
    (hsurv : t = LabelType.scalar → ∀ q ∈ v.patchesDataset,
      ∀ s ∈ v.source.root, s.id = q.sample_id →
      X ∉ project_ids t (lookupField s.fields F)) :
    (∃ mid : SourceRef,
      srcFieldIds t F (srcVisible mid) =
        srcFieldIds t F (srcVisible v.source) ∧
      ops.filter (opIsDeleteLabels F) =
        [SyncOp.deleteLabels (rootDeleteIds { v with source := mid } t F) F] ∧
      X ∈ rootDeleteIds { v with source := mid } t F) ∧
    X ∉ srcFieldIds t F (srcVisible src) := by
  induction fields generalizing v ops src with
  | nil => exact absurd hF (by simp)
  | cons g rest ih =>
      rw [List.nodup_cons] at hnd
      rw [sync_source_root_fields] at h
      cases h1 : sync_source_root_field v g with
      | none => rw [h1] at h; exact absurd h (by simp)
      | some pr =>
          obtain ⟨ops1, src1⟩ := pr
          rw [h1] at h
          simp only at h
          cases h2 : sync_source_root_fields { v with source := src1 } rest with
          | none => rw [h2] at h; exact absurd h (by simp)
          | some pr2 =>
              obtain ⟨ops2, src2⟩ := pr2
              rw [h2] at h
              simp only [Option.some.injEq, Prod.mk.injEq] at h
              obtain ⟨hops, hsrc⟩ := h
              subst hops; subst hsrc
              rcases List.mem_cons.mp hF with hgF | hFrest
              · -- the head field is F itself
                subst hgF
                have hXD : X ∈ rootDeleteIds v t F := by
                  rw [rootDeleteIds, mem_setDiff]
                  exact ⟨rootUpdate_survives v t F X hX hsurv, hnl⟩
                obtain ⟨t', ht', hc⟩ :=
                  sync_source_root_field_shape v F ops1 src1 h1
                have h3 : (some t' : Option LabelType) = some t :=
                  ht'.symm.trans ht
                injection h3 with h4
                subst h4
                rcases hc with ⟨hemp, _, _⟩ | ⟨_, hops1, hsrc1⟩
                · rw [hemp] at hXD
                  exact absurd hXD (by simp)
                · have habs1 : ∀ y ∈ srcFieldIds t' F (srcVisible src1),
                      y ∈ aggLabelIds t' F v.patchesDataset :=
                    sync_root_field_key v F t' ops1 src1 ht h1 hkeys
                  obtain ⟨hf2, hsel2, fn2, hroot2, hid2, hlk2⟩ :=
                    sync_root_fields_preserve rest _ _ _ F h2 hnd.1
                  have habs : X ∉ srcFieldIds t' F (srcVisible src2) := by
                    rw [srcFieldIds_eq_of_fn t' F src1 src2 fn2 hroot2 hsel2
                      hid2 hlk2]
                    intro hc2
                    exact hnl (habs1 X hc2)
                  refine ⟨⟨v.source, rfl, ?_, hXD⟩, habs⟩
                  rw [List.filter_append, hf2, List.append_nil, hops1]
                  rw [List.filter_cons, List.filter_cons]
                  rw [if_neg (by simp [opIsDeleteLabels, rootUpdateOp])]
                  rw [if_pos (by simp [opIsDeleteLabels])]
                  rfl
              · -- the head field differs from F
                have hgne : F ≠ g := fun hc => hnd.1 (hc ▸ hFrest)
                obtain ⟨hsel1, fn1, hroot1, hid1, hlk1F, hkeysub1, hdel1⟩ :=
                  sync_root_field_fn v g ops1 src1 h1
                have hlk1 : ∀ s, lookupField (fn1 s).fields F =
                    lookupField s.fields F := hlk1F F hgne
                have hids_eq : srcFieldIds t F (srcVisible src1) =
                    srcFieldIds t F (srcVisible v.source) :=
                  srcFieldIds_eq_of_fn t F v.source src1 fn1 hroot1 hsel1
                    hid1 hlk1
                have hkeys1 : ∀ s ∈ src1.root,
                    ((s.fields.map (fun e => e.1)).Nodup) := by
                  intro s1 hs1
                  rw [hroot1, List.mem_map] at hs1
                  obtain ⟨s0, hs0, heq⟩ := hs1
                  subst heq
                  exact (hkeysub1 s0).nodup (hkeys s0 hs0)
                have hX1 : X ∈ srcFieldIds t F (srcVisible src1) := by
                  rw [hids_eq]; exact hX
                have hsurv1 : t = LabelType.scalar →
                    ∀ q ∈ v.patchesDataset, ∀ s ∈ src1.root,
                    s.id = q.sample_id →
                    X ∉ project_ids t (lookupField s.fields F) := by
                  intro hts q hq s1 hs1 hsid
                  rw [hroot1, List.mem_map] at hs1
                  obtain ⟨s0, hs0, heq⟩ := hs1
                  subst heq
                  rw [hlk1 s0]
                  rw [hid1 s0] at hsid
                  exact hsurv hts q hq s0 hs0 hsid
                obtain ⟨⟨mid1, hmid1, hfil2, hXD2⟩, habs2⟩ :=
                  ih { v with source := src1 } ops2 src2 h2 hnd.2 hFrest ht
                    hkeys1 hX1 hnl hsurv1
                refine ⟨⟨mid1, ?_, ?_, hXD2⟩, habs2⟩
                · exact hmid1.trans hids_eq
                · rw [List.filter_append]
                  have hf1 : ops1.filter (opIsDeleteLabels F) = [] := by
                    rw [List.filter_eq_nil_iff]
                    intro op hop hdec
                    exact hgne ((hdel1 op hop F hdec).symm)
                  rw [hf1, List.nil_append]
                  exact hfil2

/-- Claim C2: for a tracked label field, after a label id X has been removed
from the patches dataset (its patch record was deleted) while the source
collection still holds a label with that id, calling the view's save
computes the set difference (label ids of the field present in the source
collection) minus (label ids of the field present in the full patches
dataset) and issues exactly one bulk delete-labels call for exactly that
difference scoped to the field, so X is absent from the source collection's
field afterwards. -/
theorem claim_C2_deletion_propagation (v : PatchesView) (arg : FieldsArg)
    (ops : List SyncOp) (v' : PatchesView) (F : String) (t : LabelType)
    (X : String)
    (h : view_save v arg = some (ops, v'))
    (hnd : (resolveFields v.labelFields (normalizeArg arg)).Nodup)
    (hF : F ∈ resolveFields v.labelFields (normalizeArg arg))
    (ht : lookupType v.schema F = some t)
    (hkeys : ∀ s ∈ v.source.root, ((s.fields.map (fun e => e.1)).Nodup))
    (hX : X ∈ srcFieldIds t F (srcVisible v.source))
    (hnl : X ∉ aggLabelIds t F v.patchesDataset)
    (hsurv : t = LabelType.scalar → ∀ q ∈ v.patchesDataset,
      ∀ s ∈ v.source.root, s.id = q.sample_id →
      X ∉ project_ids t (lookupField s.fields F)) :
    (∃ mid : SourceRef,
      srcFieldIds t F (srcVisible mid) =
        srcFieldIds t F (srcVisible v.source) ∧
      ops.filter (opIsDeleteLabels F) =
        [SyncOp.deleteLabels (rootDeleteIds { v with source := mid } t F) F] ∧
      X ∈ rootDeleteIds { v with source := mid } t F) ∧
    X ∉ srcFieldIds t F (srcVisible v'.source) := by
  rw [view_save] at h
  cases h0 : sync_source_root_fields v
      (resolveFields v.labelFields (normalizeArg arg)) with
  | none => rw [h0] at h; exact absurd h (by simp)
  | some pr =>
      obtain ⟨ops0, src0⟩ := pr
      rw [h0] at h
      simp only [Option.some.injEq, Prod.mk.injEq] at h
      obtain ⟨hops, hv'⟩ := h
      subst hops
      obtain ⟨hex, habs⟩ := sync_root_fields_delete_spec _ v ops0 src0 F t X
        h0 hnd hF ht hkeys hX hnl hsurv
      constructor
      · obtain ⟨mid, h1, h2, h3⟩ := hex
        refine ⟨mid, h1, ?_, h3⟩
        rw [List.filter_cons, if_neg (by simp [opIsDeleteLabels])]
        exact h2
      · rw [← hv']
        exact habs

theorem claim_C2_witness :
    "b" ∉ srcFieldIds LabelType.list "gt" (srcVisible exSrcRefDel) := by
  have h := (claim_C2_deletion_propagation exViewDel FieldsArg.all
    [SyncOp.baseSave none, rootUpdateOp exViewDel LabelType.list "gt",
     SyncOp.deleteLabels ["b"] "gt"]
    { exViewDel with source := exSrcRefDel } "gt" LabelType.list "b"
    (by decide) (by decide) (by decide) (by decide) (by decide) (by decide)
    (by decide) (by decide)).2
  exact h

theorem deleteFromValue_nil (v : FieldValue) :
    deleteFromValue [] v = some v := by
  cases v with
  | scalarVal l => simp [deleteFromValue]
  | listVal ls =>
      simp only [deleteFromValue, Option.some.injEq, FieldValue.listVal.injEq]
      rw [List.filter_eq_self]
      intro l _
      simp

theorem deleteLabelsSample_nil (field : String) (s : SrcSample) :
    deleteLabelsSample [] field s = s := by
  show ({ s with fields := s.fields.filterMap _ } : SrcSample) = s
  have hf : s.fields.filterMap (fun e =>
      if e.1 = field then (deleteFromValue [] e.2).map (fun v => (e.1, v))
      else some e) = s.fields := by
    induction s.fields with
    | nil => rfl
    | cons e rest ih =>
        by_cases he : e.1 = field
        · rw [List.filterMap_cons_some
            (by rw [if_pos he, deleteFromValue_nil]; rfl), ih]
        · rw [List.filterMap_cons_some (by rw [if_neg he]), ih]
  rw [hf]

theorem setLabelsSample_of_steps_id (field : String)
    (pairs : List (String × SyncDoc)) (s : SrcSample)
    (h : ∀ pr ∈ pairs, setLabelsStep field s pr = s) :
    setLabelsSample field pairs s = s := by
  induction pairs with
  | nil => rfl
  | cons pr rest ih =>
      rw [setLabelsSample_cons, h pr (by simp)]
      exact ih (fun pr' hpr' => h pr' (by simp [hpr']))

theorem setFieldValue_of_absent (fs : List (String × FieldValue)) (F : String)
    (g : FieldValue → FieldValue) (h : lookupField fs F = none) :
    setFieldValue fs F g = fs := by
  induction fs with
  | nil => rfl
  | cons e rest ih =>
      rw [lookupField] at h
      by_cases he : e.1 = F
      · rw [if_pos he] at h
        exact absurd h (by simp)
      · rw [if_neg he] at h
        show (if e.1 = F then (e.1, g e.2) else e) :: setFieldValue rest F g
          = e :: rest
        rw [if_neg he, ih h]

theorem setFieldValue_of_fixed (fs : List (String × FieldValue)) (F : String)
    (g : FieldValue → FieldValue)
    (hk : (fs.map (fun e => e.1)).Nodup)
    (h : ∀ vv, lookupField fs F = some vv → g vv = vv) :
    setFieldValue fs F g = fs := by
  induction fs with
  | nil => rfl
  | cons e rest ih =>
      simp only [List.map_cons, List.nodup_cons] at hk
      show (if e.1 = F then (e.1, g e.2) else e) :: setFieldValue rest F g
        = e :: rest
      by_cases he : e.1 = F
      · rw [if_pos he]
        have hge : g e.2 = e.2 := h e.2 (by rw [lookupField, if_pos he])
        rw [hge]
        have habs : lookupField rest F = none := by
          rw [← he] at *
          clear h ih
          induction rest with
          | nil => rfl
          | cons e2 rest2 ih2 =>
              simp only [List.map_cons, List.mem_cons, not_or,
                List.nodup_cons] at hk
              rw [lookupField, if_neg (fun hc => hk.1.1 hc.symm)]
              exact ih2 ⟨hk.1.2, hk.2.2⟩
        rw [setFieldValue_of_absent rest F g habs]
      · rw [if_neg he]
        have h2 : ∀ vv, lookupField rest F = some vv → g vv = vv := by
          intro vv hvv
          exact h vv (by rw [lookupField, if_neg he]; exact hvv)
        rw [ih hk.2 h2]

theorem filter_singleton_of_nodup_keys (pairs : List (String × SyncDoc))
    (hk : (pairs.map (fun pr => pr.1)).Nodup) (pr : String × SyncDoc)
    (hm : pr ∈ pairs) (sid : String) (hsid : pr.1 = sid) :
    pairs.filter (fun x => decide (x.1 = sid)) = [pr] := by
  induction pairs with
  | nil => exact absurd hm (by simp)
  | cons q rest ih =>
      simp only [List.map_cons, List.nodup_cons] at hk
      rcases List.mem_cons.mp hm with hm | hm
      · subst hm
        rw [List.filter_cons, if_pos (by simp [hsid])]
        have hrest : rest.filter (fun x => decide (x.1 = sid)) = [] := by
          rw [List.filter_eq_nil_iff]
          intro x hx hdec
          simp only [decide_eq_true_eq] at hdec
          exact hk.1 (by rw [← hsid] at hdec
                         exact hdec ▸ List.mem_map_of_mem (fun pr => pr.1) hx)
        rw [hrest]
      · have hqne : ¬ (q.1 = sid) := by
          intro hc
          apply hk.1
          rw [hc, ← hsid]
          exact List.mem_map_of_mem (fun pr => pr.1) hm
        rw [List.filter_cons, if_neg (by simp [hqne])]
        exact ih hk.2 hm

theorem flatten_filter_sublist {α β : Type} (l : List α) (p : α → Bool)
    (g : α → List β) :
    (((l.filter p).map g).flatten).Sublist ((l.map g).flatten) := by
  induction l with
  | nil => exact List.Sublist.refl _
  | cons a rest ih =>
      rw [List.filter_cons]
      by_cases hp : p a
      · rw [if_pos hp, List.map_cons, List.map_cons, List.flatten_cons,
          List.flatten_cons]
        exact ih.append_left (g a)
      · rw [if_neg hp, List.map_cons, List.flatten_cons]
        exact ih.trans (List.sublist_append_right _ _)

theorem project_raw_labels (t : LabelType) (fv : Option FieldValue)
    (hwf : optValueWF t fv = true) :
    (project_raw t fv).labels = optValueLabels fv := by
  cases fv with
  | none => cases t <;> rfl
  | some vv =>
      cases vv with
      | scalarVal l =>
          cases t with
          | scalar => rfl
          | list => exact absurd hwf (by simp [optValueWF, valueWF])
      | listVal ls =>
          cases t with
          | scalar => exact absurd hwf (by simp [optValueWF, valueWF])
          | list => rfl

theorem docWF_project_raw (t : LabelType) (fv : Option FieldValue)
    (hwf : optValueWF t fv = true) : docWF t (project_raw t fv) = true := by
  cases fv with
  | none => cases t <;> rfl
  | some vv =>
      cases vv with
      | scalarVal l =>
          cases t with
          | scalar => simp [project_raw, docWF]
          | list => exact absurd hwf (by simp [optValueWF, valueWF])
      | listVal ls =>
          cases t with
          | scalar => exact absurd hwf (by simp [optValueWF, valueWF])
          | list => simp [project_raw, docWF]

theorem docIds_aggDocs (t : LabelType) (F : String) (ds : List Patch)
    (hwfp : patchesWF t F ds = true) :
    docIds (aggDocs t F ds) = aggLabelIds t F ds := by
  unfold docIds aggDocs aggLabelIds
  rw [List.map_map]
  congr 1
  apply List.map_congr_left
  intro q hq
  show (project_raw t (lookupField q.fields F)).labels.map (fun l => l.id) = _
  have hwfq : optValueWF t (lookupField q.fields F) = true := by
    unfold patchesWF at hwfp
    rw [List.all_eq_true] at hwfp
    exact hwfp q hq
  rw [project_raw_labels t _ hwfq, ← project_ids_eq_of_wf t _ hwfq]

theorem mem_docsFor (pairs : List (String × SyncDoc))
    (pr : String × SyncDoc) (hm : pr ∈ pairs) (sid : String)
    (hsid : pr.1 = sid) : pr.2 ∈ docsFor pairs sid := by
  unfold docsFor
  exact List.mem_map_of_mem _ (List.mem_filter.mpr ⟨hm, by simp [hsid]⟩)

theorem docIds_docsFor_sublist (pairs : List (String × SyncDoc))
    (sid : String) :
    (docIds (docsFor pairs sid)).Sublist
      (docIds (pairs.map (fun pr => pr.2))) := by
  unfold docIds docsFor
  rw [List.map_map, List.map_map]
  exact flatten_filter_sublist pairs _ _

theorem run2_step_id (t : LabelType) (F : String)
    (pairs : List (String × SyncDoc)) (D : List String) (s0 : SrcSample)
    (hkeys0 : (s0.fields.map (fun e => e.1)).Nodup)
    (hwfs0 : optValueWF t (lookupField s0.fields F) = true)
    (hwfd : ∀ pr ∈ pairs, docWF t pr.2 = true)
    (hnd : (docIds (pairs.map (fun pr => pr.2))).Nodup)
    (hD : ∀ y ∈ docIds (pairs.map (fun pr => pr.2)), y ∉ D)
    (hsc : t = LabelType.scalar → (pairs.map (fun pr => pr.1)).Nodup) :
    setLabelsSample F pairs
      (deleteLabelsSample D F (setLabelsSample F pairs s0)) =
      deleteLabelsSample D F (setLabelsSample F pairs s0) := by
  apply setLabelsSample_of_steps_id
  intro pr hpr
  unfold setLabelsStep
  by_cases hid : (deleteLabelsSample D F (setLabelsSample F pairs s0)).id
      = pr.1
  · rw [if_pos hid]
    have hupdkeys : ((setLabelsSample F pairs s0).fields.map
        (fun e => e.1)).Nodup := by
      rw [keys_setLabelsSample]; exact hkeys0
    have hkeys1 : ((deleteLabelsSample D F
        (setLabelsSample F pairs s0)).fields.map (fun e => e.1)).Nodup := by
      have h1 := keys_deleteLabelsSample_sublist D F
        (setLabelsSample F pairs s0)
      rw [keys_setLabelsSample] at h1
      exact h1.nodup hkeys0
    have hprid : pr.1 = s0.id := by
      rw [deleteLabelsSample_id, setLabelsSample_id] at hid
      exact hid.symm
    have hfix : ∀ vv, lookupField (deleteLabelsSample D F
        (setLabelsSample F pairs s0)).fields F = some vv →
        applySetDoc vv pr.2 = vv := by
      intro vv hvv
      rw [lookupField_deleteLabelsSample_self D F _ hupdkeys,
        lookupField_setLabelsSample_self] at hvv
      cases hv0 : lookupField s0.fields F with
      | none => rw [hv0] at hvv; exact absurd hvv (by simp)
      | some vv0 =>
          rw [hv0, Option.map_some', Option.some_bind] at hvv
          rw [hv0] at hwfs0
          cases t with
          | list =>
              cases vv0 with
              | scalarVal l0 =>
                  exact absurd hwfs0 (by simp [optValueWF, valueWF])
              | listVal cur0 =>
                  rw [foldl_applySetDoc_listVal] at hvv
                  simp only [deleteFromValue, Option.some.injEq] at hvv
                  subst hvv
                  have happ : ∀ LS, applySetDoc (FieldValue.listVal LS) pr.2 =
                      FieldValue.listVal (upsertLabels LS pr.2.labels) := by
                    intro LS
                    cases pr.2 <;> rfl
                  rw [happ]
                  congr 1
                  apply upsert_eq_self
                  intro n hn
                  have hds : pr.2 ∈ docsFor pairs s0.id :=
                    mem_docsFor pairs pr hpr _ hprid
                  have hndDS : (docIds (docsFor pairs s0.id)).Nodup :=
                    (docIds_docsFor_sublist pairs s0.id).nodup hnd
                  have hcu := labelsFold_establish (docsFor pairs s0.id) cur0
                    hndDS pr.2 hds n hn
                  apply containsUniq_filter
                  · simp only [decide_eq_true_eq]
                    apply hD
                    apply (docIds_docsFor_sublist pairs s0.id).subset
                    unfold docIds
                    rw [List.mem_flatten]
                    exact ⟨pr.2.labels.map (fun l => l.id),
                      List.mem_map_of_mem _ hds, List.mem_map_of_mem _ hn⟩
                  · exact hcu
          | scalar =>
              have hknd := hsc rfl
              have hflt := filter_singleton_of_nodup_keys pairs hknd pr hpr
                s0.id hprid
              have hDS : docsFor pairs s0.id = [pr.2] := by
                unfold docsFor
                rw [hflt]
                rfl
              rw [hDS] at hvv
              cases vv0 with
              | listVal _ =>
                  exact absurd hwfs0 (by simp [optValueWF, valueWF])
              | scalarVal l0 =>
                  have hdwf := hwfd pr hpr
                  cases hpr2 : pr.2 with
                  | many ls =>
                      rw [hpr2] at hdwf
                      exact absurd hdwf (by simp [docWF])
                  | wrapped ls =>
                      rw [hpr2] at hdwf
                      exact absurd hdwf (by simp [docWF])
                  | one l =>
                      rw [hpr2] at hvv
                      show applySetDoc vv (SyncDoc.one l) = vv
                      simp only [List.foldl_cons, List.foldl_nil,
                        applySetDoc] at hvv
                      simp only [deleteFromValue] at hvv
                      split at hvv
                      · exact absurd hvv (by simp)
                      · simp only [Option.some.injEq] at hvv
                        subst hvv
                        rfl
                  | null =>
                      rw [hpr2] at hvv
                      show applySetDoc vv SyncDoc.null = vv
                      simp only [List.foldl_cons, List.foldl_nil,
                        applySetDoc] at hvv
                      simp only [deleteFromValue] at hvv
                      split at hvv
                      · exact absurd hvv (by simp)
                      · simp only [Option.some.injEq] at hvv
                        subst hvv
                        rfl
    rw [setFieldValue_of_fixed _ F _ hkeys1 hfix]
  · rw [if_neg hid]

theorem delete_labels_nil (field : String) (ds : List SrcSample) :
    delete_labels [] field ds = ds := by
  unfold delete_labels
  exact map_id_of_mem _ _ (fun s _ => deleteLabelsSample_nil field s)

theorem run2_update_id (v : PatchesView) (t : LabelType) (F : String)
    (D : List String)
    (hwfp : patchesWF t F v.patchesDataset = true)
    (hwfs : sourceWF t F v.source.root = true)
    (hnodup : (aggLabelIds t F v.patchesDataset).Nodup)
    (hscalar : t = LabelType.scalar → (aggSampleIds v.patchesDataset).Nodup)
    (hkeys : ∀ s ∈ v.source.root, ((s.fields.map (fun e => e.1)).Nodup))
    (hD : ∀ y ∈ aggLabelIds t F v.patchesDataset, y ∉ D) :
    set_labels_by_id F (aggSampleIds v.patchesDataset)
      (aggDocs t F v.patchesDataset)
      (delete_labels D F (set_labels_by_id F (aggSampleIds v.patchesDataset)
        (aggDocs t F v.patchesDataset) v.source.root)) =
    delete_labels D F (set_labels_by_id F (aggSampleIds v.patchesDataset)
      (aggDocs t F v.patchesDataset) v.source.root) := by
  have hlen : (aggDocs t F v.patchesDataset).length ≤
      (aggSampleIds v.patchesDataset).length := by
    simp [aggDocs, aggSampleIds]
  have hsnd : ((aggSampleIds v.patchesDataset).zip
      (aggDocs t F v.patchesDataset)).map (fun pr => pr.2) =
      aggDocs t F v.patchesDataset :=
    List.map_snd_zip _ _ hlen
  have hlen2 : (aggSampleIds v.patchesDataset).length ≤
      (aggDocs t F v.patchesDataset).length := by
    simp [aggDocs, aggSampleIds]
  have hfst : ((aggSampleIds v.patchesDataset).zip
      (aggDocs t F v.patchesDataset)).map (fun pr => pr.1) =
      aggSampleIds v.patchesDataset :=
    List.map_fst_zip _ _ hlen2
  show (delete_labels D F (set_labels_by_id F _ _ v.source.root)).map
      (setLabelsSample F _) = _
  apply map_id_of_mem
  intro s1 hs1
  unfold delete_labels at hs1
  rw [List.mem_map] at hs1
  obtain ⟨su, hsu, hequ⟩ := hs1
  unfold set_labels_by_id at hsu
  rw [List.mem_map] at hsu
  obtain ⟨s0, hs0, heq0⟩ := hsu
  subst hequ
  subst heq0
  apply run2_step_id t F _ D s0 (hkeys s0 hs0)
  · unfold sourceWF at hwfs
    rw [List.all_eq_true] at hwfs
    exact hwfs s0 hs0
  · intro pr hpr
    rw [aggPairs_eq, List.mem_map] at hpr
    obtain ⟨q, hq, heqq⟩ := hpr
    subst heqq
    apply docWF_project_raw
    unfold patchesWF at hwfp
    rw [List.all_eq_true] at hwfp
    exact hwfp q hq
  · rw [hsnd, docIds_aggDocs t F _ hwfp]
    exact hnodup
  · rw [hsnd, docIds_aggDocs t F _ hwfp]
    exact hD
  · intro hts
    rw [hfst]
    exact hscalar hts

/-- Claim C3: full-root sync is idempotent — running the full-root sync of a
tracked field twice with no intervening edits leaves the source collection
in the same state as running it once: the second run writes the same
(sample-id, label-document) pairs, its deletion phase computes an empty id
difference, and no delete call is issued. -/
theorem claim_C3_idempotent (v : PatchesView) (F : String) (t : LabelType)
    (ops1 : List SyncOp) (src1 : SourceRef)
    (ht : lookupType v.schema F = some t)
    (h1 : sync_source_root_field v F = some (ops1, src1))
    (hwfp : patchesWF t F v.patchesDataset = true)
    (hwfs : sourceWF t F v.source.root = true)
    (hnodup : (aggLabelIds t F v.patchesDataset).Nodup)
    (hscalar : t = LabelType.scalar → (aggSampleIds v.patchesDataset).Nodup)
    (hkeys : ∀ s ∈ v.source.root, ((s.fields.map (fun e => e.1)).Nodup)) :
    ops1.head? = some (rootUpdateOp v t F) ∧
    sync_source_root_field { v with source := src1 } F =
      some ([rootUpdateOp v t F], src1) := by
  obtain ⟨t', ht', hc⟩ := sync_source_root_field_shape v F ops1 src1 h1
  have h3 : (some t' : Option LabelType) = some t := ht'.symm.trans ht
  injection h3 with h4
  subst h4
  have hupd_id : set_labels_by_id F (aggSampleIds v.patchesDataset)
      (aggDocs t' F v.patchesDataset) src1.root = src1.root := by
    rcases hc with ⟨_, _, hsrc⟩ | ⟨_, _, hsrc⟩
    · subst hsrc
      have hbase := run2_update_id v t' F [] hwfp hwfs hnodup hscalar hkeys
        (fun y _ => by simp)
      rw [delete_labels_nil] at hbase
      exact hbase
    · subst hsrc
      have hDprop : ∀ y ∈ aggLabelIds t' F v.patchesDataset,
          y ∉ rootDeleteIds v t' F := by
        intro y hy hc2
        rw [rootDeleteIds, mem_setDiff] at hc2
        exact hc2.2 hy
      exact run2_update_id v t' F (rootDeleteIds v t' F) hwfp hwfs hnodup
        hscalar hkeys hDprop
  have hupd_ref : rootUpdateRef { v with source := src1 } t' F = src1 := by
    show ({ src1 with root := set_labels_by_id F (aggSampleIds v.patchesDataset) (aggDocs t' F v.patchesDataset) src1.root } : SourceRef) = src1
    rw [hupd_id]
  have hdel2 : rootDeleteIds { v with source := src1 } t' F = [] := by
    have hkey := sync_root_field_key v F t' ops1 src1 ht h1 hkeys
    have hsub : ∀ y ∈ srcFieldIds t' F (srcVisible src1),
        y ∈ aggLabelIds t' F v.patchesDataset := hkey
    rw [rootDeleteIds, hupd_ref]
    exact List.isEmpty_iff.mp ((setDiff_isEmpty_iff _ _).mpr hsub)
  constructor
  · rcases hc with ⟨_, hops, _⟩ | ⟨_, hops, _⟩ <;> rw [hops] <;> rfl
  · rw [sync_source_root_field]
    simp only
    rw [ht]
    simp only [hdel2, List.isEmpty_nil, if_true, hupd_ref]
    rfl

theorem claim_C3_witness :
    sync_source_root_field
      { exView with source := rootUpdateRef exView LabelType.list "gt" }
      "gt" =
    some ([rootUpdateOp exView LabelType.list "gt"],
          rootUpdateRef exView LabelType.list "gt") :=
  (claim_C3_idempotent exView "gt" LabelType.list
    [rootUpdateOp exView LabelType.list "gt"]
    (rootUpdateRef exView LabelType.list "gt") (by decide) (by decide)
    (by decide) (by decide) (by decide) (by decide) (by decide)).2

end FiftyonePatches
